import Mathlib

/-!
# Verification of the Silk atomic CSS engine against its specification

Shallow embedding of the Silk repository's core CSS generation code
(`src/unnamed/part_008` AssemblyScript transform, `src/unnamed/part_002`
nesting transformer, `packages/core/src/layers.ts`,
`packages/core/src/merge-styles.ts`, `packages/core/src/colors.ts`,
`packages/core/src/production-node.ts`) together with proofs settling the
frozen claims about it.

Strings are embedded as Lean `String`/`List Char`; JavaScript 32-bit
integer arithmetic is embedded as `Nat` arithmetic taken `% 2^32`.
All source inputs of interest are ASCII, where JavaScript's
`charCodeAt` (UTF-16 units) agrees with `Char.toNat`.
-/

set_option maxRecDepth 10000

/-! ## Generic string/list helpers mirroring the JavaScript runtime -/

/-- The whitespace characters relevant to JavaScript's `String.prototype.trim`
(ASCII subset; the sources only produce these). -/
def wsChar (c : Char) : Bool :=
  c = ' ' || c = '\t' || c = '\n' || c = '\r' || c = '\x0b' || c = '\x0c'

/-- Trim whitespace from both ends of a character list (JS `trim`). -/
def trimChars (l : List Char) : List Char :=
  ((l.dropWhile wsChar).reverse.dropWhile wsChar).reverse

/-- JS `String.prototype.trim` on Lean strings. -/
def jsTrim (s : String) : String :=
  String.mk (trimChars s.data)

/-- A string with visible ends: non-empty, no whitespace as first or last
character (such strings are fixed points of `jsTrim`). -/
def GoodStr (s : String) : Prop :=
  s.data ≠ [] ∧ wsChar (s.data.headD ' ') = false ∧ wsChar (s.data.getLastD ' ') = false

/-- JS `Array.prototype.join(sep)`. -/
def joinSep (sep : String) : List String → String
  | [] => ""
  | [x] => x
  | x :: y :: t => x ++ sep ++ joinSep sep (y :: t)

/-- Split a character list at the first occurrence of `c`
(returns the pieces before and after it). -/
def splitFirst (c : Char) : List Char → Option (List Char × List Char)
  | [] => none
  | x :: xs =>
    if x = c then some ([], xs)
    else
      match splitFirst c xs with
      | none => none
      | some (a, b) => some (x :: a, b)

/-- Accumulator for `splitAll`. -/
def splitAllAux (c : Char) : List Char → List Char → List (List Char)
  | [], cur => [cur.reverse]
  | x :: xs, cur =>
    if x = c then cur.reverse :: splitAllAux c xs []
    else splitAllAux c xs (x :: cur)

/-- JS `String.prototype.split(c)`: split at every occurrence of `c`. -/
def splitAll (c : Char) (l : List Char) : List (List Char) :=
  splitAllAux c l []

/-- JS `String.prototype.replace(pat, rep)` with a string pattern:
replace only the first occurrence. -/
def replaceFirstChars (pat rep : List Char) : List Char → List Char
  | [] => if pat.isEmpty then rep else []
  | c :: rest =>
    if pat.isPrefixOf (c :: rest) then rep ++ (c :: rest).drop pat.length
    else c :: replaceFirstChars pat rep rest

/-- JS `String.prototype.replace` (first occurrence only) on Lean strings. -/
def jsReplace (s pat rep : String) : String :=
  String.mk (replaceFirstChars pat.data rep.data s.data)

/-- JS `String.prototype.startsWith`. -/
def jsStartsWith (s pat : String) : Bool :=
  pat.data.isPrefixOf s.data

/-- Assignment `obj[k] = v` on a JavaScript object embedded as an
insertion-ordered association list: an existing key keeps its position and
gets the new value, a fresh key is appended. -/
def jsSet {α : Type} (k : String) (v : α) : List (String × α) → List (String × α)
  | [] => [(k, v)]
  | (k', v') :: t => if k' = k then (k, v) :: t else (k', v') :: jsSet k v t

/-- Property lookup on an embedded JavaScript object (first binding wins;
objects built through `jsSet` have distinct keys). -/
def jsGet {α : Type} (l : List (String × α)) (k : String) : Option α :=
  match l with
  | [] => none
  | (k', v) :: t => if k' = k then some v else jsGet t k

/-- JS object spread `{...a, ...b}` for string-valued objects. -/
def jsSpread (a b : List (String × String)) : List (String × String) :=
  b.foldl (fun acc kv => jsSet kv.1 kv.2 acc) a

/-! ## part_008: AssemblyScript CSS transformation module -/

/-- The `PROPERTY_MAP` shorthand table of `src/unnamed/part_008`. -/
def PROPERTY_MAP : List (String × String) :=
  [("m", "margin"), ("mt", "margin-top"), ("mr", "margin-right"),
   ("mb", "margin-bottom"), ("ml", "margin-left"), ("mx", "margin-inline"),
   ("my", "margin-block"), ("p", "padding"), ("pt", "padding-top"),
   ("pr", "padding-right"), ("pb", "padding-bottom"), ("pl", "padding-left"),
   ("px", "padding-inline"), ("py", "padding-block"), ("w", "width"),
   ("h", "height"), ("minW", "min-width"), ("minH", "min-height"),
   ("maxW", "max-width"), ("maxH", "max-height"), ("bg", "background-color"),
   ("bgColor", "background-color"), ("rounded", "border-radius")]

/-- `camelToKebab` from part_008: uppercase A-Z becomes `-` plus lowercase. -/
def camelToKebab (str : String) : String :=
  String.mk (str.data.foldr
    (fun c acc => if 65 ≤ c.toNat ∧ c.toNat ≤ 90 then '-' :: c.toLower :: acc else c :: acc) [])

/-- `resolveCSSProperty` from part_008. -/
def resolveCSSProperty (property : String) : String :=
  match jsGet PROPERTY_MAP property with
  | some p => p
  | none => camelToKebab property

/-- Digit characters `0`-`9`. -/
def isDigitChar (c : Char) : Bool :=
  48 ≤ c.toNat && c.toNat ≤ 57

/-- Numeric value of a digit list (most significant first). -/
def natOfDigits (l : List Char) : Nat :=
  l.foldl (fun a c => a * 10 + (c.toNat - 48)) 0

/-- Embedded decimal number `m / 10^s` (exact; models the JavaScript numbers
produced by `parseFloat` on plain decimal numerals — `% 0.25` scaling on this
domain is exact in binary floating point as well). -/
abbrev DecNum := Int × Nat

/-- Parse an unsigned decimal numeral (`digits` or `digits.digits`). -/
def parseUnsignedDecimal (l : List Char) : Option DecNum :=
  let intPart := l.takeWhile isDigitChar
  let rest := l.dropWhile isDigitChar
  if intPart.isEmpty then none
  else
    match rest with
    | [] => some ((natOfDigits intPart : Int), 0)
    | '.' :: frac =>
      if frac.isEmpty || !frac.all isDigitChar then none
      else some ((natOfDigits intPart * 10 ^ frac.length + natOfDigits frac : Int), frac.length)
    | _ => none

/-- Parse an optionally negated decimal numeral.  This is the domain of plain
decimal numerals accepted by part_008's bare-number test
(`!isNaN(parseFloat(value)) && value === num.toString()`); exponential and
`Infinity` numerals are outside the modelled domain. -/
def parseDecimalChars : List Char → Option DecNum
  | '-' :: r => (parseUnsignedDecimal r).map (fun d => (-d.1, d.2))
  | l => parseUnsignedDecimal l

/-- Decimal digits of a natural number. -/
def natDigits (n : Nat) : List Char :=
  Nat.toDigits 10 n

/-- Left-pad a digit list with `0` to width `k`. -/
def padZeros (s : List Char) (k : Nat) : List Char :=
  List.replicate (k - s.length) '0' ++ s

/-- Remove trailing decimal zeros from `m / 10^s`. -/
def stripZeros : Int → Nat → Int × Nat
  | m, 0 => (m, 0)
  | m, s + 1 => if m % 10 = 0 then stripZeros (m / 10) s else (m, s + 1)

/-- Digits of a nonnegative `m / 10^s` in canonical JS form. -/
def renderDecCore (m : Nat) (s : Nat) : List Char :=
  if s = 0 then natDigits m
  else natDigits (m / 10 ^ s) ++ '.' :: padZeros (natDigits (m % 10 ^ s)) s

/-- Canonical JS `Number.prototype.toString` rendering of an embedded decimal
number (shortest decimal form: no trailing zeros, no `-0`). -/
def renderDec (d : DecNum) : String :=
  let c := stripZeros d.1 d.2
  if c.1 < 0 then String.mk ('-' :: renderDecCore (-c.1).toNat c.2)
  else String.mk (renderDecCore c.1.toNat c.2)

/-- Multiplication by the `0.25` spacing unit: `(m / 10^s) * 0.25 = 25m / 10^(s+2)`
(exact, matching the floating-point product on this domain). -/
def quarterDec (d : DecNum) : DecNum :=
  (d.1 * 25, d.2 + 2)

/-- The bare-number test of `normalizeCSSValue`
(`!isNaN(parseFloat(value)) && value === num.toString()`), embedded as
parsing a decimal numeral and checking that its canonical rendering
reproduces the input. -/
def isBareNumeric (value : String) : Bool :=
  match parseDecimalChars value.data with
  | some num => renderDec num = value
  | none => false

/-- The parsed numeric value of a bare numeric string. -/
def jsNumberOf (value : String) : DecNum :=
  (parseDecimalChars value.data).getD (0, 0)

/-- The spacing test of `normalizeCSSValue`:
`property.startsWith('p') || property.startsWith('m') || property === 'gap'`. -/
def isSpacingTest (property : String) : Bool :=
  jsStartsWith property "p" || jsStartsWith property "m" || property == "gap"

/-- The unitless test of `normalizeCSSValue`. -/
def isUnitlessTest (property : String) : Bool :=
  property == "opacity" || property == "zIndex" || property == "fontWeight"
    || property == "lineHeight" || property == "flex"

/-- `normalizeCSSValue` from part_008. -/
def normalizeCSSValue (property value : String) : String :=
  match parseDecimalChars value.data with
  | some num =>
    if renderDec num = value then
      if isSpacingTest property then renderDec (quarterDec num) ++ "rem"
      else if isUnitlessTest property then value
      else value ++ "px"
    else value
  | none => value

/-- `hashString` from part_008: `hash = ((hash << 5) - hash) + charCode` in
32-bit arithmetic (`(h << 5) - h = 31*h`, with all operations wrapping
mod `2^32`), rendered in lowercase hex, first 4 characters. -/
def hashString (str : String) : String :=
  let h := str.data.foldl (fun hash c => (hash * 31 + c.toNat) % 4294967296) 0
  String.mk ((Nat.toDigits 16 h).take 4)

/-- `generateClassName` from part_008.  `pfx` is the `prefix` parameter of the
source; each `replace` call replaces only the first occurrence (JS string
pattern semantics). -/
def generateClassName (property value pfx : String) : String :=
  let cssProperty := resolveCSSProperty property
  let cssValue := normalizeCSSValue property value
  let safeValue := jsReplace (jsReplace (jsReplace (jsReplace (jsReplace
      value " " "_") "(" "") ")" "") "#" "") "." "_"
  let hash := hashString (cssProperty ++ cssValue)
  pfx ++ "_" ++ property ++ "_" ++ safeValue ++ "_" ++ hash

/-- `generateCSSRule` from part_008. -/
def generateCSSRule (className property value : String) : String :=
  "." ++ className ++ " \x7b " ++ resolveCSSProperty property ++ ": "
    ++ normalizeCSSValue property value ++ "; \x7d"

/-! ## The documented hash: MurmurHash2-family mix, base-36
(from `packages/swc-plugin/README.md`, the repository's reference
implementation for cross-tool hash consistency). -/

/-- 32-bit XOR implemented by structural recursion on a 32-step fuel
(kernel-reducible, unlike `Nat.xor`). -/
def xor32Aux : Nat → Nat → Nat → Nat
  | 0, _, _ => 0
  | f + 1, a, b =>
    (if a % 2 = b % 2 then 0 else 1) + 2 * xor32Aux f (a / 2) (b / 2)

/-- 32-bit XOR. -/
def xor32 (a b : Nat) : Nat :=
  xor32Aux 32 a b

/-- One step of the `murmur_hash2` loop from the swc-plugin README:
`h = (h ^ c).wrapping_mul(0x5bd1e995); h ^= h >> 13`. -/
def murmurStep (h c : Nat) : Nat :=
  let h1 := (xor32 h c * 0x5bd1e995) % 4294967296
  xor32 h1 (h1 / 8192)

/-- `murmur_hash2` from the swc-plugin README (32-bit state over the
characters of the string). -/
def murmurHash2 (s : String) : Nat :=
  s.data.foldl (fun h c => murmurStep h c.toNat) 0

/-- One base-36 digit, lowercase. -/
def digitChar36 (n : Nat) : Char :=
  if n < 10 then Char.ofNat (48 + n) else Char.ofNat (87 + n)

/-- Base-36 digit accumulation, structurally recursive on a fuel that
strictly exceeds the digit count of any 32-bit value. -/
def toBase36Core : Nat → Nat → List Char → List Char
  | 0, _, acc => acc
  | f + 1, n, acc =>
    if n = 0 then acc else toBase36Core f (n / 36) (digitChar36 (n % 36) :: acc)

/-- `base36_encode`: JS `Number.prototype.toString(36)`. -/
def base36Encode (n : Nat) : String :=
  if n = 0 then "0" else String.mk (toBase36Core 32 n [])

/-- `JSON.stringify` on a plain string value without characters needing
escapes (the domain used by the hash content strings). -/
def jsonStringify (v : String) : String :=
  "\"" ++ v ++ "\""

/-- The specified hash suffix for a (property, value) pair: the base-36
rendering of the MurmurHash2-family digest of the canonical content string
`"<property>:<JSON-stringified value>:"`. -/
def specHashSuffix (property value : String) : String :=
  base36Encode (murmurHash2 (property ++ ":" ++ jsonStringify value ++ ":"))

/-- The spec's digit-leading remap (`0→g, …, 9→p`), applied to the first
character of a generated hash. -/
def digitLeadRemap (s : String) : String :=
  match s.data with
  | [] => s
  | c :: rest =>
    if 48 ≤ c.toNat ∧ c.toNat ≤ 57 then String.mk (Char.ofNat (103 + (c.toNat - 48)) :: rest)
    else s

/-- The spacing family as worded by the spec: properties that resolve to a
margin, padding or gap CSS property. -/
def specSpacingFamily (property : String) : Bool :=
  resolveCSSProperty property ∈
    ["margin", "margin-top", "margin-right", "margin-bottom", "margin-left",
     "margin-inline", "margin-block", "padding", "padding-top", "padding-right",
     "padding-bottom", "padding-left", "padding-inline", "padding-block",
     "gap", "row-gap", "column-gap"]

/-- The unitless set as worded by the spec (it coincides with the source's
`isUnitlessTest`). -/
def specUnitless (property : String) : Bool :=
  isUnitlessTest property

/-! ## packages/core/src/colors.ts -/

/-- `ColorMixOptions` with the defaults destructured inside `colorMix`.
Percentages are embedded as integers (the sources interpolate them into the
output string; integer rendering agrees with JS number rendering). -/
structure ColorMixOptions where
  colorSpace : String := "oklch"
  hueInterpolation : Option String := none
deriving DecidableEq

/-- `colorMix` from colors.ts. -/
def colorMix (color1 color2 : String) (percentage : Int) (options : ColorMixOptions) : String :=
  let hueMethod :=
    match options.hueInterpolation with
    | some h => " " ++ h ++ " hue"
    | none => ""
  "color-mix(in " ++ options.colorSpace ++ hueMethod ++ ", " ++ color1 ++ " "
    ++ toString percentage ++ "%, " ++ color2 ++ ")"

/-- `lighten` from colors.ts. -/
def lighten (color : String) (percentage : Int) (options : ColorMixOptions) : String :=
  colorMix "white" color (100 - percentage) options

/-- `darken` from colors.ts. -/
def darken (color : String) (percentage : Int) (options : ColorMixOptions) : String :=
  colorMix "black" color (100 - percentage) options

/-- `alpha` from colors.ts. -/
def alpha (color : String) (percentage : Int) (options : ColorMixOptions) : String :=
  colorMix "transparent" color (100 - percentage) options

/-! ## packages/core/src/layers.ts -/

/-- The fixed `CascadeLayer` enumeration. -/
inductive CascadeLayer where
  | reset | base | tokens | recipes | utilities | overrides
deriving DecidableEq

/-- The layer's name string. -/
def layerName : CascadeLayer → String
  | .reset => "reset"
  | .base => "base"
  | .tokens => "tokens"
  | .recipes => "recipes"
  | .utilities => "utilities"
  | .overrides => "overrides"

/-- `LayerConfig` after merging with `defaultLayerConfig`
(`{...defaultLayerConfig, ...config}` makes every field present). -/
structure LayerConfig where
  enabled : Bool
  order : List CascadeLayer
  defaultLayer : CascadeLayer
deriving DecidableEq

/-- `defaultLayerConfig` from layers.ts. -/
def defaultLayerConfig : LayerConfig :=
  ⟨true, [.reset, .base, .tokens, .recipes, .utilities], .utilities⟩

/-- `generateLayerDefinition` from layers.ts. -/
def generateLayerDefinition (config : LayerConfig) : String :=
  if !config.enabled || config.order.isEmpty then ""
  else "@layer " ++ joinSep ", " (config.order.map layerName) ++ ";"

/-- `wrapInLayer` from layers.ts. -/
def wrapInLayer (css : String) (layer : CascadeLayer) (enabled : Bool) : String :=
  if !enabled || jsTrim css = "" then css
  else "@layer " ++ layerName layer ++ " \x7b\n" ++ css ++ "\n\x7d"

/-- `Map.get` on the rules map, embedded as an insertion-ordered association
list (a JS `Map` has distinct keys; lookup takes the first binding). -/
def lookupLayer (rules : List (CascadeLayer × List String)) (l : CascadeLayer) :
    Option (List String) :=
  match rules with
  | [] => none
  | (k, v) :: t => if k = l then some v else lookupLayer t l

/-- The `parts` pushed by `organizeByLayers`' loop over the configured order:
a wrapped block plus an empty separator entry for every non-empty layer. -/
def layerParts (rules : List (CascadeLayer × List String)) : List CascadeLayer → List String
  | [] => []
  | l :: rest =>
    match lookupLayer rules l with
    | some rs =>
      if rs.length > 0 then
        wrapInLayer (joinSep "\n" rs) l true :: "" :: layerParts rules rest
      else layerParts rules rest
    | none => layerParts rules rest

/-- `organizeByLayers` from layers.ts. -/
def organizeByLayers (rules : List (CascadeLayer × List String)) (config : LayerConfig) :
    String :=
  if !config.enabled then joinSep "\n" (rules.map Prod.snd).flatten
  else
    let layerDef := generateLayerDefinition config
    let parts := (if layerDef = "" then [] else [layerDef, ""]) ++ layerParts rules config.order
    jsTrim (joinSep "\n" parts)

/-- The `@layer` blocks of the non-empty layers taken in configured order,
as the claim describes them (without the interleaved separator entries). -/
def layerBlocksSpec (rules : List (CascadeLayer × List String)) :
    List CascadeLayer → List String
  | [] => []
  | l :: rest =>
    match lookupLayer rules l with
    | some rs =>
      if rs.length > 0 then
        ("@layer " ++ layerName l ++ " \x7b\n" ++ joinSep "\n" rs ++ "\n\x7d")
          :: layerBlocksSpec rules rest
      else layerBlocksSpec rules rest
    | none => layerBlocksSpec rules rest

/-- `Map.set` on the layer rules map (existing key keeps its position). -/
def layerSet (rules : List (CascadeLayer × List String)) (l : CascadeLayer)
    (v : List String) : List (CascadeLayer × List String) :=
  match rules with
  | [] => [(l, v)]
  | (k, w) :: t => if k = l then (l, v) :: t else (k, w) :: layerSet t l v

/-- The `LayerManager` class: a rules `Map` from layer to an insertion-ordered
`Set` of rule strings (embedded as a duplicate-free list), plus the merged
config. -/
structure LayerManager where
  rules : List (CascadeLayer × List String)
  config : LayerConfig
deriving DecidableEq

/-- The `LayerManager` constructor: initializes one empty set per configured
layer. -/
def LayerManager.new (config : LayerConfig) : LayerManager :=
  ⟨config.order.foldl (fun m l => layerSet m l []) [], config⟩

/-- `LayerManager.add`: ensure the layer's set exists, then `Set.add` the rule
(no-op when the string is already present, append otherwise). -/
def LayerManager.add (m : LayerManager) (css : String) (layer : CascadeLayer) :
    LayerManager :=
  let rules :=
    match lookupLayer m.rules layer with
    | some _ => m.rules
    | none => m.rules ++ [(layer, [])]
  let rules :=
    match lookupLayer rules layer with
    | some s => layerSet rules layer (if css ∈ s then s else s ++ [css])
    | none => rules
  { m with rules := rules }

/-- `LayerManager.getLayer`: `Array.from` of the layer's set (insertion
order), empty when the layer is absent. -/
def LayerManager.getLayer (m : LayerManager) (layer : CascadeLayer) : List String :=
  (lookupLayer m.rules layer).getD []

/-- `LayerManager.size`: total number of stored rules across all layers. -/
def LayerManager.size (m : LayerManager) : Nat :=
  (m.rules.map (fun p => p.2.length)).sum

/-- `LayerManager.generateCSS`: organize the stored rules by layer. -/
def LayerManager.generateCSS (m : LayerManager) : String :=
  organizeByLayers m.rules m.config

/-- The representation invariant of the embedded per-layer `Set`s: each
layer's rule list is duplicate-free (every manager reachable through `add`
satisfies it). -/
def LayerWf (m : LayerManager) : Prop :=
  ∀ p ∈ m.rules, p.2.Nodup

/-! ## packages/core/src/merge-styles.ts -/

/-- A style-object value: either a scalar (strings, numbers, arrays — anything
the source's object test rejects) or a nested fragment object (the non-array
objects used under `_`/`@` keys; one level, as specified). -/
inductive StyleVal where
  | scalar : String → StyleVal
  | nested : List (String × String) → StyleVal
deriving DecidableEq

/-- A style object: an insertion-ordered association list. -/
abbrev StyleObj := List (String × StyleVal)

/-- The reserved-prefix test of merge-styles.ts. -/
def isNestedKey (k : String) : Bool :=
  jsStartsWith k "_" || jsStartsWith k "@"

/-- One `merged[key] = …` step of `mergeStyles`' inner loop. -/
def mergeStep (merged : StyleObj) (kv : String × StyleVal) : StyleObj :=
  match kv.2, isNestedKey kv.1 with
  | .nested v, true =>
    match jsGet merged kv.1 with
    | some (.nested o) => jsSet kv.1 (.nested (jsSpread o v)) merged
    | _ => jsSet kv.1 (.nested (jsSpread [] v)) merged
  | v, _ => jsSet kv.1 v merged

/-- `mergeStyles` from merge-styles.ts: falsy arguments (`undefined`, `null`,
`false`) are skipped; nested objects under `_`/`@` keys are shallow-merged,
everything else overwrites.  (When an earlier scalar sits under a nested key,
the source's `{...merged[key], ...value}` spreads the scalar's characters;
that degenerate case is embedded as starting from an empty object.) -/
def mergeStyles (styles : List (Option StyleObj)) : StyleObj :=
  styles.foldl
    (fun merged style =>
      match style with
      | none => merged
      | some st => st.foldl mergeStep merged)
    []

/-- The value the last assignment to key `k` leaves, over a flat run of
entries (claim-side helper: "the value from the last argument object
containing that key"). -/
def lastValue? {α : Type} (entries : List (String × α)) (k : String) : Option α :=
  entries.foldl (fun acc kv => if kv.1 = k then some kv.2 else acc) none

/-- All entries of a style sequence, in processing order. -/
def allEntries (styles : List (Option StyleObj)) : List (String × StyleVal) :=
  (styles.filterMap id).flatten

/-- The nested fragments stored under key `k` in an entry run. -/
def fragsOf (entries : List (String × StyleVal)) (k : String) :
    List (List (String × String)) :=
  entries.filterMap
    (fun kv => if kv.1 = k then match kv.2 with
      | .nested v => some v
      | .scalar _ => none
      else none)

/-- The nested fragments stored under key `k` across a style sequence. -/
def fragmentsAt (styles : List (Option StyleObj)) (k : String) :
    List (List (String × String)) :=
  fragsOf (allEntries styles) k

/-- Whether every entry under key `k` in every style is a nested fragment. -/
def nestedOnlyAt (styles : List (Option StyleObj)) (k : String) : Bool :=
  (allEntries styles).all
    (fun kv => kv.1 ≠ k || match kv.2 with | .nested _ => true | .scalar _ => false)

/-- The accumulator update `{...merged[key], ...value}` of the nested branch,
as a function of the current binding. -/
def spreadInto (cur : Option StyleVal) (v : List (String × String)) : StyleVal :=
  match cur with
  | some (.nested o) => .nested (jsSpread o v)
  | _ => .nested (jsSpread [] v)

/-! ## part_002: native CSS nesting transformer -/

/-- `NestingConfig` after merging with `defaultNestingConfig`. -/
structure NestingConfig where
  enabled : Bool
  legacyFallback : Bool
deriving DecidableEq

/-- `defaultNestingConfig` from part_002. -/
def defaultNestingConfig : NestingConfig :=
  ⟨true, false⟩

/-- The character class `[a-z-]` of the pseudo-stripping regex. -/
def lowerDash (c : Char) : Bool :=
  (97 ≤ c.toNat && c.toNat ≤ 122) || c = '-'

/-- One global scan of the regex `(:[a-z-]+|::[a-z-]+|\[[^\]]+\])` replaced by
the empty string: at each position try the alternatives in order, drop a match
and continue after it, otherwise keep the character.  Structurally recursive
on a fuel bounded below by the scan-step count (each step consumes at least
one character, so `length` fuel always suffices). -/
def stripPseudoAux : Nat → List Char → List Char
  | 0, l => l
  | _ + 1, [] => []
  | f + 1, c :: rest =>
    if c = ':' then
      if rest.headD ' ' = ':' then
        if (rest.tail.takeWhile lowerDash).isEmpty then c :: stripPseudoAux f rest
        else stripPseudoAux f (rest.tail.dropWhile lowerDash)
      else
        if (rest.takeWhile lowerDash).isEmpty then c :: stripPseudoAux f rest
        else stripPseudoAux f (rest.dropWhile lowerDash)
    else if c = '[' then
      match splitFirst ']' rest with
      | some (inner, after) =>
        if inner.isEmpty then c :: stripPseudoAux f rest
        else stripPseudoAux f after
      | none => c :: stripPseudoAux f rest
    else c :: stripPseudoAux f rest

/-- Strip pseudo-classes, pseudo-elements and attribute selectors. -/
def stripPseudoChars (l : List Char) : List Char :=
  stripPseudoAux l.length l

/-- `extractBaseSelector` from part_002. -/
def extractBaseSelector (selector : String) : String :=
  String.mk (trimChars (stripPseudoChars selector.data))

/-- A parsed flat rule: `selector { decl; decl; }`. -/
structure ParsedRule where
  selector : String
  declarations : List (String × String)
deriving DecidableEq

/-- One `decl.split(':')` segment of `parseRule`'s declaration loop: the first
two segments are property and value, trimmed, kept when both non-empty. -/
def parseDeclSeg (acc : List (String × String)) (seg : List Char) :
    List (String × String) :=
  match splitAll ':' seg with
  | p :: v :: _ =>
    let p' := trimChars p
    let v' := trimChars v
    if p'.isEmpty || v'.isEmpty then acc else jsSet (String.mk p') (String.mk v') acc
  | _ => acc

/-- `parseRule` from part_002: the regex `^([^{]+)\{([^}]+)\}` — a non-empty
selector before the first `{`, a non-empty declaration body before the
following first `}`. -/
def parseRule (rule : String) : Option ParsedRule :=
  match splitFirst '{' rule.data with
  | none => none
  | some (sel, rest) =>
    if sel.isEmpty then none
    else
      match splitFirst '}' rest with
      | none => none
      | some (decls, _) =>
        if decls.isEmpty then none
        else
          some ⟨String.mk (trimChars sel),
            (splitAll ';' (trimChars decls)).foldl parseDeclSeg []⟩

/-- The per-base-selector grouping record of `groupRulesBySelector`. -/
structure SelectorGroup where
  base : List (String × String)
  nested : List (String × List (String × String))
deriving DecidableEq

/-- Processing of a single rule by `groupRulesBySelector`'s loop. -/
def addRuleToGroups (grouped : List (String × SelectorGroup)) (rule : String) :
    List (String × SelectorGroup) :=
  match parseRule rule with
  | none => grouped
  | some pr =>
    let baseSelector := extractBaseSelector pr.selector
    let grouped :=
      match jsGet grouped baseSelector with
      | some _ => grouped
      | none => grouped ++ [(baseSelector, ⟨[], []⟩)]
    match jsGet grouped baseSelector with
    | some g =>
      let g' :=
        if pr.selector = baseSelector then
          { g with base := pr.declarations.foldl (fun b kv => jsSet kv.1 kv.2 b) g.base }
        else
          { g with nested :=
              (jsSet (jsReplace pr.selector baseSelector "&") pr.declarations g.nested) }
      jsSet baseSelector g' grouped
    | none => grouped

/-- `groupRulesBySelector` from part_002. -/
def groupRulesBySelector (rules : List String) : List (String × SelectorGroup) :=
  rules.foldl addRuleToGroups []

/-- The declaration line `prop: value; prop: value` of a props object. -/
def declLine (props : List (String × String)) : String :=
  joinSep "; " (props.map (fun kv => kv.1 ++ ": " ++ kv.2))

/-- The expanded full selector of a nested entry
(`base + sel.slice(1)` when `sel` starts with `&`, else `base + ' ' + sel`). -/
def nestedFullSelector (baseSelector sel : String) : String :=
  if jsStartsWith sel "&" then baseSelector ++ String.mk sel.data.tail
  else baseSelector ++ " " ++ sel

/-- The flat rules pushed by `generateExpandedCSS` (part_002's legacy
fallback): the base rule when its declaration line is non-empty, then one
expanded rule per nested entry. -/
def expandedRules (baseSelector : String) (baseProps : List (String × String))
    (nestedRules : List (String × List (String × String))) : List String :=
  (if declLine baseProps = "" then []
   else [baseSelector ++ " \x7b " ++ declLine baseProps ++ "; \x7d"])
    ++ nestedRules.map
      (fun kv => nestedFullSelector baseSelector kv.1 ++ " \x7b " ++ declLine kv.2 ++ "; \x7d")

/-- `generateExpandedCSS` from part_002. -/
def generateExpandedCSS (baseSelector : String) (baseProps : List (String × String))
    (nestedRules : List (String × List (String × String))) : String :=
  joinSep "\n" (expandedRules baseSelector baseProps nestedRules)

/-- A nested rule line of the native-nesting output. -/
def nestedRuleLine (kv : String × List (String × String)) : String :=
  "  " ++ (if jsStartsWith kv.1 "&" then kv.1 else "& " ++ kv.1)
    ++ " \x7b " ++ declLine kv.2 ++ "; \x7d"

/-- `generateNestedCSS` from part_002: expanded selectors when nesting is
disabled or the legacy fallback is requested, native nesting otherwise. -/
def generateNestedCSS (baseSelector : String) (baseProps : List (String × String))
    (nestedRules : List (String × List (String × String))) (config : NestingConfig) :
    String :=
  if !config.enabled || config.legacyFallback then
    generateExpandedCSS baseSelector baseProps nestedRules
  else if nestedRules.isEmpty then
    baseSelector ++ " \x7b " ++ declLine baseProps ++ "; \x7d"
  else
    joinSep "\n"
      ([baseSelector ++ " \x7b"]
        ++ (if declLine baseProps = "" then [] else ["  " ++ declLine baseProps ++ ";"])
        ++ nestedRules.map nestedRuleLine ++ ["\x7d"])

/-! ### Well-formedness domain for the nesting round trip -/

/-- Characters allowed in a class-like base selector: printable, and none of
the pseudo/attribute/brace/colon machinery. -/
def cleanSelectorChar (c : Char) : Bool :=
  !wsChar c && c ≠ ':' && c ≠ '[' && c ≠ '{' && c ≠ '}' && c ≠ ']'

/-- A well-formed base selector (e.g. `.btn`). -/
def CleanSelector (s : String) : Bool :=
  !s.data.isEmpty && s.data.all cleanSelectorChar

/-- Characters allowed in declaration properties and values. -/
def declChar (c : Char) : Bool :=
  c ≠ ':' && c ≠ ';' && c ≠ '{' && c ≠ '}' && c ≠ '\n'

/-- A well-formed declaration token: non-empty, no structural characters,
no surrounding whitespace (internal whitespace is fine). -/
def declToken (s : String) : Bool :=
  !s.data.isEmpty && s.data.all declChar
    && !wsChar (s.data.headD ' ') && !wsChar (s.data.getLastD ' ')

/-- A well-formed props object: distinct keys, well-formed tokens. -/
def WfProps (props : List (String × String)) : Prop :=
  props.Pairwise (fun a b => a.1 ≠ b.1)
    ∧ ∀ kv ∈ props, declToken kv.1 = true ∧ declToken kv.2 = true

/-- A pseudo/attribute suffix segment: the three alternatives of the
stripping regex. -/
inductive Seg where
  | pseudo : List Char → Seg
  | pseudoElt : List Char → Seg
  | attr : List Char → Seg
deriving DecidableEq

/-- The characters of a segment. -/
def segChars : Seg → List Char
  | .pseudo w => ':' :: w
  | .pseudoElt w => ':' :: ':' :: w
  | .attr inner => '[' :: (inner ++ [']'])

/-- Segment well-formedness: pseudo words are non-empty `[a-z-]` runs;
attribute bodies are non-empty and free of `]`, braces and whitespace. -/
def segWf : Seg → Bool
  | .pseudo w => !w.isEmpty && w.all lowerDash
  | .pseudoElt w => !w.isEmpty && w.all lowerDash
  | .attr inner =>
    !inner.isEmpty && inner.all (fun c => c ≠ ']' && c ≠ '{' && c ≠ '}' && !wsChar c)

/-- The concatenated characters of a suffix. -/
def suffixChars (segs : List Seg) : List Char :=
  (segs.map segChars).flatten

/-- A well-formed `&`-prefixed nested key: `&` followed by one or more
well-formed pseudo/attribute segments. -/
def WfNestedKey (k : String) : Prop :=
  ∃ segs : List Seg, segs ≠ [] ∧ (∀ s ∈ segs, segWf s = true)
    ∧ k.data = '&' :: suffixChars segs

/-! ## packages/core/src/production-node.ts -/

/-- The production options relevant at this boundary. -/
structure ProductionConfig where
  minify : Bool := true
deriving DecidableEq

/-- The byte-savings record of a CSS optimization result. -/
structure OptimizationSavings where
  originalSize : Nat
  optimizedSize : Nat
  percentage : Rat
deriving DecidableEq

/-- `CSSOptimizationResult` from production.ts. -/
structure CSSOptimizationResult where
  optimized : String
  savings : OptimizationSavings
deriving DecidableEq

/-- Collapse whitespace runs to single spaces (flag: previous char was
whitespace). -/
def collapseWSAux : List Char → Bool → List Char
  | [], _ => []
  | c :: rest, prevWs =>
    if wsChar c then
      if prevWs then collapseWSAux rest true else ' ' :: collapseWSAux rest true
    else c :: collapseWSAux rest false

/-- Modelled from the spec: the internal pure-JS minifier `optimizeCSS` of
`packages/core/src/production.ts` is not under src (only its importer
`production-node.ts` is).  The spec describes it as the core's "own internal
minifier (whitespace/separator collapsing)"; embedded as collapsing
whitespace runs and trimming, with the source's result shape. -/
def optimizeCSS (css : String) : CSSOptimizationResult :=
  let optimized := jsTrim (String.mk (collapseWSAux css.data false))
  let originalSize := css.utf8ByteSize
  let optimizedSize := optimized.utf8ByteSize
  ⟨optimized, originalSize, optimizedSize,
    ((originalSize : Rat) - optimizedSize) / originalSize * 100⟩

/-- `optimizeCSSWithLightning` from production-node.ts.  The external
LightningCSS WASM engine at the call boundary is embedded as an optional
transform: `none` models `loadLightningCSS()` resolving to `null` (module
unavailable or failed to initialize), and a transform returning an error
models `lightning.transform` throwing; both are caught by the source's
`if (!lightning)` branch and `try`/`catch`. -/
def optimizeCSSWithLightning
    (engine : Option (ProductionConfig → String → Except String String))
    (config : ProductionConfig) (css : String) : CSSOptimizationResult :=
  let originalSize := css.utf8ByteSize
  match engine with
  | none => optimizeCSS css
  | some transform =>
    match transform config css with
    | .error _ => optimizeCSS css
    | .ok code =>
      let optimizedSize := code.utf8ByteSize
      ⟨code, originalSize, optimizedSize,
        ((originalSize : Rat) - optimizedSize) / originalSize * 100⟩

/-! # Theorems -/

/-! ## C1: the class-name hash of part_008 versus the documented hash -/

/-- C1: the claim states that the hash embedded in `generateClassName`'s
output equals the base-36 MurmurHash2-family digest of
`"<property>:<JSON-stringified value>:"`.  The code diverges: part_008's
`hashString` is a `h*31 + c` accumulation over
`resolvedProperty ++ normalizedValue`, rendered in hex and truncated to 4
characters.  At (property `bg`, value `red`, prefix `silk`) the embedded hash
is `acb6` while the specified digest is `oqmaqr` (the repository's own
debug fixtures confirm `oqmaqr` for the documented hash). -/
theorem c1_generateClassName_hash_diverges :
    generateClassName "bg" "red" "silk"
      = "silk_bg_red_" ++ hashString ("background-color" ++ "red")
    ∧ hashString ("background-color" ++ "red") = "acb6"
    ∧ specHashSuffix "bg" "red" = "oqmaqr"
    ∧ digitLeadRemap (specHashSuffix "bg" "red") = "oqmaqr"
    ∧ hashString ("background-color" ++ "red") ≠ specHashSuffix "bg" "red"
    ∧ generateClassName "bg" "red" "silk"
        ≠ "silk_bg_red_" ++ specHashSuffix "bg" "red" := by
  decide

/-! ## C2: value normalization branches -/

/-- C2 (amended): for a bare numeric value the result is the quarter-scaled
`rem` value exactly when the property name starts with `p`, starts with `m`,
or equals `gap` (the source's test — not the spec's margin/padding/gap
family); unitless properties keep the value; every other property gets `px`;
non-numeric values pass through unchanged. -/
theorem c2_normalizeCSSValue_branches (property value : String) :
    (isBareNumeric value = false → normalizeCSSValue property value = value)
    ∧ (isBareNumeric value = true →
        (isSpacingTest property = true →
          normalizeCSSValue property value
            = renderDec (quarterDec (jsNumberOf value)) ++ "rem")
        ∧ (isSpacingTest property = false → isUnitlessTest property = true →
            normalizeCSSValue property value = value)
        ∧ (isSpacingTest property = false → isUnitlessTest property = false →
            normalizeCSSValue property value = value ++ "px")) := by
  unfold normalizeCSSValue isBareNumeric jsNumberOf
  cases h : parseDecimalChars value.data with
  | none => simp
  | some num =>
    by_cases hc : renderDec num = value
    · refine ⟨fun hfalse => by simp [hc] at hfalse, fun _ => ?_⟩
      refine ⟨fun hs => by simp [hc, hs], fun hs hu => by simp [hc, hs, hu],
        fun hs hu => by simp [hc, hs, hu]⟩
    · exact ⟨fun _ => by simp [hc], fun htrue => by simp [hc] at htrue⟩

/-- Witness for C2 at concrete inputs: `p 4 → 1rem`, `opacity 0.5 → 0.5`,
`w 100 → 100px`, `color red → red`. -/
theorem c2_witness :
    isBareNumeric "4" = true ∧ isSpacingTest "p" = true
    ∧ normalizeCSSValue "p" "4" = renderDec (quarterDec (jsNumberOf "4")) ++ "rem"
    ∧ isBareNumeric "red" = false ∧ normalizeCSSValue "color" "red" = "red" := by
  refine ⟨by decide, by decide, ?_, by decide, ?_⟩
  · exact ((c2_normalizeCSSValue_branches "p" "4").2 (by decide)).1 (by decide)
  · exact (c2_normalizeCSSValue_branches "color" "red").1 (by decide)

/-- C2 counterexample: `minW` is not in the spec's margin/padding/gap
spacing family (it resolves to `min-width`) and is not unitless, so the
claim requires `4px`; the code's prefix test sends it to the spacing branch,
producing `1rem`. -/
theorem c2_minW_counterexample :
    specSpacingFamily "minW" = false
    ∧ specUnitless "minW" = false
    ∧ isBareNumeric "4" = true
    ∧ resolveCSSProperty "minW" = "min-width"
    ∧ normalizeCSSValue "minW" "4" = "1rem"
    ∧ normalizeCSSValue "minW" "4" ≠ "4" ++ "px" := by
  decide

/-! ## C6: the color-mix family -/

/-- C6: `lighten`/`darken`/`alpha` are `colorMix` against white/black/
transparent with `100 - pct`; `lighten('blue', 20)` equals
`colorMix('white', 'blue', 80)`; and `colorMix` with default options renders
`color-mix(in oklch, <c1> <pct>%, <c2>)`. -/
theorem c6_colorMix_family (c : String) (p : Int) (o : ColorMixOptions)
    (c1 c2 : String) (pct : Int) :
    lighten c p o = colorMix "white" c (100 - p) o
    ∧ darken c p o = colorMix "black" c (100 - p) o
    ∧ alpha c p o = colorMix "transparent" c (100 - p) o
    ∧ lighten "blue" 20 {} = colorMix "white" "blue" 80 {}
    ∧ colorMix c1 c2 pct {}
        = "color-mix(in oklch, " ++ c1 ++ " " ++ toString pct ++ "%, " ++ c2 ++ ")" := by
  refine ⟨rfl, rfl, rfl, rfl, rfl⟩

/-! ## C7: fallback of the LightningCSS boundary -/

/-- C7: when the external CSS-transform engine is unavailable (`none`) or its
transform throws (`Except.error`), `optimizeCSSWithLightning` returns the
internal `optimizeCSS` result on the same input; the result type is total, so
the failure never propagates. -/
theorem c7_optimizeCSSWithLightning_fallback
    (engine : Option (ProductionConfig → String → Except String String))
    (config : ProductionConfig) (css : String)
    (h : engine = none
      ∨ ∃ f e, engine = some f ∧ f config css = Except.error e) :
    optimizeCSSWithLightning engine config css = optimizeCSS css := by
  rcases h with h | ⟨f, e, hf, he⟩
  · rw [h]; rfl
  · rw [hf]; unfold optimizeCSSWithLightning; simp only []; rw [he]

/-- Witness for C7: an absent engine and a throwing engine both fall back. -/
theorem c7_witness :
    optimizeCSSWithLightning none ⟨true⟩ ".a \x7b color: red \x7d"
      = optimizeCSS ".a \x7b color: red \x7d"
    ∧ optimizeCSSWithLightning (some (fun _ _ => Except.error "wasm boom")) ⟨true⟩
        ".a \x7b color: red \x7d" = optimizeCSS ".a \x7b color: red \x7d" := by
  constructor
  · exact c7_optimizeCSSWithLightning_fallback none ⟨true⟩ ".a \x7b color: red \x7d"
      (Or.inl rfl)
  · exact c7_optimizeCSSWithLightning_fallback
      (some (fun _ _ => Except.error "wasm boom")) ⟨true⟩ ".a \x7b color: red \x7d"
      (Or.inr ⟨_, _, rfl, rfl⟩)

/-! ## C5: style merging -/

theorem jsGet_jsSet {α : Type} (k q : String) (v : α) (l : List (String × α)) :
    jsGet (jsSet k v l) q = if q = k then some v else jsGet l q := by
  induction l with
  | nil =>
    by_cases h : q = k
    · simp [jsSet, jsGet, h]
    · have h' : ¬k = q := fun hh => h hh.symm
      simp [jsSet, jsGet, h, h']
  | cons kv t ih =>
    rcases kv with ⟨k', v'⟩
    by_cases h : k' = k
    · subst h
      by_cases hq : q = k'
      · simp [jsSet, jsGet, hq]
      · have hq' : ¬k' = q := fun hh => hq hh.symm
        simp [jsSet, jsGet, hq, hq']
    · by_cases hq : q = k'
      · have hqk : ¬q = k := fun hh => h ((hq.symm.trans hh))
        have hq' : k' = q := hq.symm
        simp [jsSet, jsGet, h, hq', hqk]
      · have hq' : ¬k' = q := fun hh => hq hh.symm
        simp [jsSet, jsGet, h, hq, hq', ih]

theorem lastValue_init {α : Type} (k : String) (t : List (String × α))
    (init : Option α) :
    t.foldl (fun acc kv => if kv.1 = k then some kv.2 else acc) init
      = (match lastValue? t k with
         | some v => some v
         | none => init) := by
  induction t generalizing init with
  | nil => simp [lastValue?]
  | cons kv t ih =>
    have hlv : lastValue? (kv :: t) k
        = t.foldl (fun acc kv => if kv.1 = k then some kv.2 else acc)
            (if kv.1 = k then some kv.2 else none) := by
      simp [lastValue?]
    rw [List.foldl_cons, ih, hlv, ih]
    cases h : lastValue? t k with
    | some v => simp
    | none => by_cases hk : kv.1 = k <;> simp [hk]

theorem lastValue_cons {α : Type} (k : String) (kv : String × α) (t : List (String × α)) :
    lastValue? (kv :: t) k
      = (match lastValue? t k with
         | some v => some v
         | none => if kv.1 = k then some kv.2 else none) := by
  have : lastValue? (kv :: t) k
      = t.foldl (fun acc kv => if kv.1 = k then some kv.2 else acc)
          (if kv.1 = k then some kv.2 else none) := by
    simp [lastValue?]
  rw [this, lastValue_init]

theorem lastValue_append {α : Type} (k : String) (x y : List (String × α)) :
    lastValue? (x ++ y) k
      = (match lastValue? y k with
         | some v => some v
         | none => lastValue? x k) := by
  have : lastValue? (x ++ y) k
      = y.foldl (fun acc kv => if kv.1 = k then some kv.2 else acc) (lastValue? x k) := by
    simp [lastValue?, List.foldl_append]
  rw [this, lastValue_init]

theorem jsGet_mergeStep_ne (merged : StyleObj) (kv : String × StyleVal) (k : String)
    (hk : kv.1 ≠ k) :
    jsGet (mergeStep merged kv) k = jsGet merged k := by
  rcases kv with ⟨k1, v⟩
  simp only [ne_eq] at hk
  have hq : k ≠ k1 := fun h => hk h.symm
  cases v with
  | scalar s => simp [mergeStep, jsGet_jsSet, hq]
  | nested w =>
    cases hn : isNestedKey k1 with
    | false => simp [mergeStep, hn, jsGet_jsSet, hq]
    | true =>
      cases hg : jsGet merged k1 with
      | none => simp [mergeStep, hn, hg, jsGet_jsSet, hq]
      | some u => cases u <;> simp [mergeStep, hn, hg, jsGet_jsSet, hq]

theorem jsGet_mergeStep_plain (merged : StyleObj) (kv : String × StyleVal)
    (hk : isNestedKey kv.1 = false) :
    jsGet (mergeStep merged kv) kv.1 = some kv.2 := by
  rcases kv with ⟨k1, v⟩
  cases v with
  | scalar s => simp [mergeStep, jsGet_jsSet]
  | nested w => simp [mergeStep, hk, jsGet_jsSet] at hk ⊢

theorem jsGet_mergeStep_nested (merged : StyleObj) (k1 : String)
    (w : List (String × String)) (hk : isNestedKey k1 = true) :
    jsGet (mergeStep merged (k1, .nested w)) k1
      = some (spreadInto (jsGet merged k1) w) := by
  cases hg : jsGet merged k1 with
  | none => simp [mergeStep, hk, hg, jsGet_jsSet, spreadInto]
  | some u => cases u <;> simp [mergeStep, hk, hg, jsGet_jsSet, spreadInto]

theorem mergeEntries_plain (k : String) (hk : isNestedKey k = false)
    (entries : List (String × StyleVal)) (merged : StyleObj) :
    jsGet (entries.foldl mergeStep merged) k
      = (match lastValue? entries k with
         | some v => some v
         | none => jsGet merged k) := by
  induction entries generalizing merged with
  | nil => simp [lastValue?]
  | cons kv t ih =>
    rw [List.foldl_cons, ih, lastValue_cons]
    cases h : lastValue? t k with
    | some v => simp
    | none =>
      by_cases he : kv.1 = k
      · subst he
        simp [jsGet_mergeStep_plain merged kv hk]
      · simp [he, jsGet_mergeStep_ne merged kv k he]

theorem mergeEntries_nested (k : String) (hk : isNestedKey k = true)
    (entries : List (String × StyleVal))
    (hn : ∀ kv ∈ entries, kv.1 = k →
      (match kv.2 with | .nested _ => True | .scalar _ => False))
    (merged : StyleObj) :
    jsGet (entries.foldl mergeStep merged) k
      = (fragsOf entries k).foldl (fun cur v => some (spreadInto cur v))
          (jsGet merged k) := by
  induction entries generalizing merged with
  | nil => simp [fragsOf]
  | cons kv t ih =>
    rcases kv with ⟨k1, v⟩
    by_cases he : k1 = k
    · subst he
      cases v with
      | scalar s => exact absurd (hn (k1, .scalar s) (by simp) rfl) (by simp)
      | nested w =>
        rw [List.foldl_cons,
          ih (fun kv hkv => hn kv (List.mem_cons_of_mem _ hkv))]
        simp [fragsOf, jsGet_mergeStep_nested merged k1 w hk]
    · rw [List.foldl_cons, ih (fun kv hkv => hn kv (List.mem_cons_of_mem _ hkv))]
      simp [fragsOf, he, jsGet_mergeStep_ne merged (k1, v) k he]

theorem mergeStyles_eq_entries (styles : List (Option StyleObj)) :
    mergeStyles styles = (allEntries styles).foldl mergeStep [] := by
  suffices h : ∀ init : StyleObj,
      styles.foldl
        (fun merged style =>
          match style with
          | none => merged
          | some st => st.foldl mergeStep merged)
        init = (allEntries styles).foldl mergeStep init by
    exact h []
  induction styles with
  | nil => intro init; simp [allEntries]
  | cons st styles ih =>
    intro init
    cases st with
    | none => simpa [allEntries, List.filterMap_cons] using ih init
    | some l =>
      simp only [List.foldl_cons]
      rw [ih (l.foldl mergeStep init)]
      simp [allEntries, List.filterMap_cons, List.foldl_append]

theorem spread_chain (fs : List (List (String × String)))
    (m : List (String × String)) :
    fs.foldl (fun cur v => some (spreadInto cur v)) (some (.nested m))
      = some (.nested (fs.foldl jsSpread m)) := by
  induction fs generalizing m with
  | nil => simp
  | cons f t ih =>
    rw [List.foldl_cons, List.foldl_cons]
    exact ih (jsSpread m f)

theorem jsGet_jsSpread (a b : List (String × String)) (ik : String) :
    jsGet (jsSpread a b) ik
      = (match lastValue? b ik with
         | some v => some v
         | none => jsGet a ik) := by
  induction b generalizing a with
  | nil => simp [jsSpread, lastValue?]
  | cons kv t ih =>
    have : jsSpread a (kv :: t) = jsSpread (jsSet kv.1 kv.2 a) t := by
      simp [jsSpread]
    rw [this, ih, lastValue_cons]
    cases h : lastValue? t ik with
    | some v => simp
    | none =>
      by_cases he : ik = kv.1
      · simp [he, jsGet_jsSet]
      · have he' : ¬kv.1 = ik := fun hh => he hh.symm
        simp [jsGet_jsSet, he, he']

theorem jsGet_spread_fold (fs : List (List (String × String)))
    (a : List (String × String)) (ik : String) :
    jsGet (fs.foldl jsSpread a) ik
      = (match lastValue? fs.flatten ik with
         | some v => some v
         | none => jsGet a ik) := by
  induction fs generalizing a with
  | nil => simp [lastValue?]
  | cons f t ih =>
    rw [List.foldl_cons, ih, List.flatten_cons, lastValue_append]
    cases h : lastValue? t.flatten ik with
    | some v => simp
    | none => simp [jsGet_jsSpread]

/-- C5: plain keys hold the value of the last argument containing them;
`_`/`@`-prefixed keys whose fragments are all objects are combined
property-wise (shallow merge), with the later argument winning per inner
property, not replaced wholesale. -/
theorem c5_mergeStyles_spec (styles : List (Option StyleObj)) (k : String) :
    (isNestedKey k = false →
      jsGet (mergeStyles styles) k = lastValue? (allEntries styles) k)
    ∧ (isNestedKey k = true → nestedOnlyAt styles k = true →
        jsGet (mergeStyles styles) k
          = (if fragmentsAt styles k = [] then none
             else some (.nested ((fragmentsAt styles k).foldl jsSpread [])))
        ∧ ∀ ik, jsGet ((fragmentsAt styles k).foldl jsSpread []) ik
            = lastValue? (fragmentsAt styles k).flatten ik) := by
  constructor
  · intro hk
    rw [mergeStyles_eq_entries, mergeEntries_plain k hk (allEntries styles) []]
    cases h : lastValue? (allEntries styles) k <;> simp [jsGet]
  · intro hk hno
    have hn : ∀ kv ∈ allEntries styles, kv.1 = k →
        (match kv.2 with | StyleVal.nested _ => True | StyleVal.scalar _ => False) := by
      intro kv hkv hke
      have := List.all_eq_true.mp hno kv hkv
      rcases kv with ⟨k1, v⟩
      cases v with
      | nested w => trivial
      | scalar s =>
        have h1 : k1 = k := hke
        have h2 : ¬k1 = k := by simpa using this
        exact absurd h1 h2
    constructor
    · rw [mergeStyles_eq_entries,
        mergeEntries_nested k hk (allEntries styles) hn []]
      cases hf : fragmentsAt styles k with
      | nil => simp [fragmentsAt] at hf; simp [hf, jsGet]
      | cons f t =>
        rw [show fragsOf (allEntries styles) k = fragmentsAt styles k from rfl, hf]
        rw [show jsGet ([] : StyleObj) k = none from rfl]
        rw [List.foldl_cons]
        rw [show spreadInto none f = StyleVal.nested (jsSpread [] f) from rfl]
        rw [spread_chain]
        simp [hf]
    · intro ik
      rw [jsGet_spread_fold]
      cases h : lastValue? (fragmentsAt styles k).flatten ik <;> simp [jsGet]

/-- Witness for C5: two `_hover` fragments combine property-wise (the second
wins on `color`, the first's `bg` survives), while the plain `px` key takes
the last argument's value. -/
theorem c5_witness :
    (isNestedKey "px" = false
      ∧ jsGet (mergeStyles [some [("px", .scalar "6"), ("_hover", .nested [("bg", "red"), ("color", "black")])], some [("px", .scalar "8"), ("_hover", .nested [("color", "white")])]]) "px"
        = lastValue? (allEntries [some [("px", .scalar "6"), ("_hover", .nested [("bg", "red"), ("color", "black")])], some [("px", .scalar "8"), ("_hover", .nested [("color", "white")])]]) "px")
    ∧ isNestedKey "_hover" = true
    ∧ nestedOnlyAt [some [("px", .scalar "6"), ("_hover", .nested [("bg", "red"), ("color", "black")])], some [("px", .scalar "8"), ("_hover", .nested [("color", "white")])]] "_hover" = true
    ∧ jsGet (mergeStyles [some [("px", .scalar "6"), ("_hover", .nested [("bg", "red"), ("color", "black")])], some [("px", .scalar "8"), ("_hover", .nested [("color", "white")])]]) "_hover"
        = some (.nested [("bg", "red"), ("color", "white")]) := by
  refine ⟨⟨by decide, ?_⟩, by decide, by decide, ?_⟩
  · exact (c5_mergeStyles_spec _ "px").1 (by decide)
  · have h := ((c5_mergeStyles_spec
      [some [("px", .scalar "6"), ("_hover", .nested [("bg", "red"), ("color", "black")])],
       some [("px", .scalar "8"), ("_hover", .nested [("color", "white")])]]
      "_hover").2 (by decide) (by decide)).1
    rw [h]
    decide

/-! ## Trim and join infrastructure for the layer theorems -/

theorem dropWhile_eq_self_of_head {α : Type} (p : α → Bool) (l : List α)
    (h : ∀ c, l.head? = some c → p c = false) : l.dropWhile p = l := by
  cases l with
  | nil => rfl
  | cons c t => simp [List.dropWhile_cons, h c rfl]

theorem trimChars_eq_self (l : List Char)
    (h1 : wsChar (l.headD ' ') = false) (h2 : wsChar (l.getLastD ' ') = false) :
    trimChars l = l := by
  cases l with
  | nil => rfl
  | cons c t =>
    unfold trimChars
    have hd : (c :: t).dropWhile wsChar = c :: t := by
      simp only [List.headD_cons] at h1
      simp [List.dropWhile_cons, h1]
    rw [hd]
    have hr : (c :: t).reverse.dropWhile wsChar = (c :: t).reverse := by
      apply dropWhile_eq_self_of_head
      intro x hx
      rw [List.head?_reverse] at hx
      have hlast : (c :: t).getLastD ' ' = x := by
        rw [List.getLastD_eq_getLast?, hx]; rfl
      rw [← hlast]; exact h2
    rw [hr, List.reverse_reverse]

theorem jsTrim_eq_self (s : String) (h : GoodStr s) : jsTrim s = s := by
  obtain ⟨_, h1, h2⟩ := h
  unfold jsTrim
  rw [trimChars_eq_self s.data h1 h2]

theorem jsTrim_append_newline (s : String) (h : GoodStr s) : jsTrim (s ++ "\n") = s := by
  obtain ⟨h0, h1, h2⟩ := h
  have key : trimChars (s.data ++ ['\n']) = s.data := by
    cases hs : s.data with
    | nil => exact absurd hs h0
    | cons c t =>
      rw [hs] at h1 h2
      rw [List.headD_cons] at h1
      unfold trimChars
      rw [List.cons_append]
      rw [List.dropWhile_cons, if_neg (by simp [h1])]
      have hrev : (c :: (t ++ ['\n'])).reverse = '\n' :: (c :: t).reverse := by
        rw [← List.cons_append, List.reverse_append]
        rfl
      rw [hrev, List.dropWhile_cons, if_pos (by decide)]
      have hr : (c :: t).reverse.dropWhile wsChar = (c :: t).reverse := by
        apply dropWhile_eq_self_of_head
        intro x hx
        rw [List.head?_reverse] at hx
        have hlast : (c :: t).getLastD ' ' = x := by
          rw [List.getLastD_eq_getLast?, hx]; rfl
        rw [← hlast]; exact h2
      rw [hr, List.reverse_reverse]
  unfold jsTrim
  rw [String.data_append]
  have hnl : ("\n" : String).data = ['\n'] := rfl
  rw [hnl, key]

theorem allWs_of_trimChars_nil (l : List Char) (h : trimChars l = []) :
    ∀ c ∈ l, wsChar c = true := by
  unfold trimChars at h
  have h1 : (l.dropWhile wsChar).reverse.dropWhile wsChar = [] := by
    have := congrArg List.reverse h
    simpa using this
  have h2 := List.dropWhile_eq_nil_iff.mp h1
  have h3 : ∀ c ∈ l.dropWhile wsChar, wsChar c = true := by
    intro c hc
    exact h2 c (by simpa using hc)
  intro c hc
  rw [← List.takeWhile_append_dropWhile wsChar l] at hc
  rcases List.mem_append.mp hc with h | h
  · exact List.mem_takeWhile_imp h
  · exact h3 c h

theorem trimChars_nil_of_allWs (l : List Char) (h : ∀ c ∈ l, wsChar c = true) :
    trimChars l = [] := by
  unfold trimChars
  rw [List.dropWhile_eq_nil_iff.mpr h]
  rfl

theorem jsTrim_ne_empty (s : String) (c : Char) (hc : c ∈ s.data)
    (hw : wsChar c = false) : jsTrim s ≠ "" := by
  intro h
  have hdata : trimChars s.data = [] := by
    have := congrArg String.data h
    simpa [jsTrim] using this
  have := allWs_of_trimChars_nil s.data hdata c hc
  rw [hw] at this
  exact absurd this (by simp)

theorem joinSep_nonblank (rs : List String) (h0 : rs ≠ [])
    (hr : ∀ r ∈ rs, jsTrim r ≠ "") : jsTrim (joinSep "\n" rs) ≠ "" := by
  cases rs with
  | nil => exact absurd rfl h0
  | cons r t =>
    have hrt : jsTrim r ≠ "" := hr r (List.mem_cons_self r t)
    have hex : ¬∀ c ∈ r.data, wsChar c = true := by
      intro hall
      apply hrt
      unfold jsTrim
      rw [trimChars_nil_of_allWs _ hall]
    push_neg at hex
    obtain ⟨c, hc, hcw⟩ := hex
    apply jsTrim_ne_empty _ c _ (by simpa using hcw)
    cases t with
    | nil => simpa [joinSep] using hc
    | cons y t' =>
      simp only [joinSep, String.data_append]
      exact List.mem_append.mpr (Or.inl (List.mem_append.mpr (Or.inl hc)))

theorem headD_append {α : Type} (x y : List α) (d : α) (hx : x ≠ []) :
    (x ++ y).headD d = x.headD d := by
  cases x with
  | nil => exact absurd rfl hx
  | cons c t => rfl

theorem getLast?_append_right {α : Type} (x y : List α) (hy : y ≠ []) :
    (x ++ y).getLast? = y.getLast? := by
  cases hl : y.getLast? with
  | none => exact absurd (List.getLast?_eq_none_iff.mp hl) hy
  | some v => rw [List.getLast?_append, hl]; rfl

theorem getLastD_append {α : Type} (x y : List α) (d : α) (hy : y ≠ []) :
    (x ++ y).getLastD d = y.getLastD d := by
  rw [List.getLastD_eq_getLast?, List.getLastD_eq_getLast?, getLast?_append_right x y hy]

theorem goodStr_affix (a b c : String) (ha : a.data ≠ []) (hc : c.data ≠ [])
    (h1 : wsChar (a.data.headD ' ') = false)
    (h2 : wsChar (c.data.getLastD ' ') = false) : GoodStr (a ++ b ++ c) := by
  refine ⟨?_, ?_, ?_⟩
  · simp only [String.data_append]
    intro h
    exact ha (List.append_eq_nil.mp (List.append_eq_nil.mp h).1).1
  · simp only [String.data_append]
    rw [List.append_assoc, headD_append _ _ _ ha]
    exact h1
  · simp only [String.data_append]
    rw [getLastD_append _ _ _ hc]
    exact h2

theorem goodStr_ne_empty (s : String) (h : GoodStr s) : s ≠ "" := by
  intro he
  exact h.1 (by rw [he])

theorem nl_nl (x : String) : "\n" ++ ("\n" ++ x) = "\n\n" ++ x := by
  rw [← String.append_assoc]
  rfl

theorem goodStr_joinSep (d : String) (bs : List String) (hd : GoodStr d)
    (hbs : ∀ b ∈ bs, GoodStr b) : GoodStr (joinSep "\n\n" (d :: bs)) := by
  induction bs generalizing d with
  | nil => exact hd
  | cons b t ih =>
    have hgood := ih b (hbs b (List.mem_cons_self b t))
      (fun x hx => hbs x (List.mem_cons_of_mem _ hx))
    have heq : joinSep "\n\n" (d :: b :: t) = d ++ "\n\n" ++ joinSep "\n\n" (b :: t) := rfl
    rw [heq]
    refine ⟨?_, ?_, ?_⟩
    · simp only [String.data_append]
      intro h
      exact hd.1 (List.append_eq_nil.mp (List.append_eq_nil.mp h).1).1
    · simp only [String.data_append]
      rw [List.append_assoc, headD_append _ _ _ hd.1]
      exact hd.2.1
    · simp only [String.data_append]
      rw [getLastD_append _ _ _ hgood.1]
      exact hgood.2.2

/-! ## C3: layer organization structure -/

theorem wrapInLayer_block (rs : List String) (l : CascadeLayer) (h0 : rs ≠ [])
    (hr : ∀ r ∈ rs, jsTrim r ≠ "") :
    wrapInLayer (joinSep "\n" rs) l true
      = "@layer " ++ layerName l ++ " \x7b\n" ++ joinSep "\n" rs ++ "\n\x7d" := by
  have h := joinSep_nonblank rs h0 hr
  simp [wrapInLayer, h]

theorem layerParts_shape (rules : List (CascadeLayer × List String))
    (hR : ∀ l rs, lookupLayer rules l = some rs → ∀ r ∈ rs, jsTrim r ≠ "")
    (order : List CascadeLayer) :
    ∀ d : String,
      joinSep "\n" (d :: "" :: layerParts rules order)
        = joinSep "\n\n" (d :: layerBlocksSpec rules order) ++ "\n" := by
  induction order with
  | nil =>
    intro d
    simp [layerParts, layerBlocksSpec, joinSep, String.append_empty]
  | cons l rest ih =>
    intro d
    cases hlk : lookupLayer rules l with
    | none =>
      rw [show layerParts rules (l :: rest) = layerParts rules rest from by
        simp [layerParts, hlk]]
      rw [show layerBlocksSpec rules (l :: rest) = layerBlocksSpec rules rest from by
        simp [layerBlocksSpec, hlk]]
      exact ih d
    | some rs =>
      by_cases hlen : rs.length > 0
      · have hne : rs ≠ [] := by
          intro he
          rw [he] at hlen
          simp at hlen
        have hblock := wrapInLayer_block rs l hne (hR l rs hlk)
        have hp : layerParts rules (l :: rest)
            = wrapInLayer (joinSep "\n" rs) l true :: "" :: layerParts rules rest := by
          simp [layerParts, hlk, hlen]
        have hb : layerBlocksSpec rules (l :: rest)
            = ("@layer " ++ layerName l ++ " \x7b\n" ++ joinSep "\n" rs ++ "\n\x7d")
                :: layerBlocksSpec rules rest := by
          simp [layerBlocksSpec, hlk, hlen]
        rw [hp, hb, hblock]
        have hLHS : joinSep "\n"
            (d :: "" :: ("@layer " ++ layerName l ++ " \x7b\n" ++ joinSep "\n" rs ++ "\n\x7d")
              :: "" :: layerParts rules rest)
            = d ++ "\n" ++ ("" ++ "\n"
                ++ joinSep "\n" (("@layer " ++ layerName l ++ " \x7b\n" ++ joinSep "\n" rs ++ "\n\x7d")
                  :: "" :: layerParts rules rest)) := rfl
        rw [hLHS, ih ("@layer " ++ layerName l ++ " \x7b\n" ++ joinSep "\n" rs ++ "\n\x7d")]
        have hRHS : joinSep "\n\n"
            (d :: ("@layer " ++ layerName l ++ " \x7b\n" ++ joinSep "\n" rs ++ "\n\x7d")
              :: layerBlocksSpec rules rest)
            = d ++ "\n\n" ++ joinSep "\n\n"
                (("@layer " ++ layerName l ++ " \x7b\n" ++ joinSep "\n" rs ++ "\n\x7d")
                  :: layerBlocksSpec rules rest) := rfl
        rw [hRHS]
        simp [String.append_assoc, String.empty_append, nl_nl]
      · rw [show layerParts rules (l :: rest) = layerParts rules rest from by
          simp [layerParts, hlk, hlen]]
        rw [show layerBlocksSpec rules (l :: rest) = layerBlocksSpec rules rest from by
          simp [layerBlocksSpec, hlk, hlen]]
        exact ih d

theorem layerBlocksSpec_good (rules : List (CascadeLayer × List String))
    (order : List CascadeLayer) :
    ∀ b ∈ layerBlocksSpec rules order, GoodStr b := by
  induction order with
  | nil => intro b hb; simp [layerBlocksSpec] at hb
  | cons l rest ih =>
    intro b hb
    cases hlk : lookupLayer rules l with
    | none =>
      rw [show layerBlocksSpec rules (l :: rest) = layerBlocksSpec rules rest from by
        simp [layerBlocksSpec, hlk]] at hb
      exact ih b hb
    | some rs =>
      by_cases hlen : rs.length > 0
      · rw [show layerBlocksSpec rules (l :: rest)
            = ("@layer " ++ layerName l ++ " \x7b\n" ++ joinSep "\n" rs ++ "\n\x7d")
              :: layerBlocksSpec rules rest from by
          simp [layerBlocksSpec, hlk, hlen]] at hb
        rcases List.mem_cons.mp hb with hb | hb
        · subst hb
          have heq : "@layer " ++ layerName l ++ " \x7b\n" ++ joinSep "\n" rs ++ "\n\x7d"
              = "@layer " ++ (layerName l ++ (" \x7b\n" ++ joinSep "\n" rs)) ++ "\n\x7d" := by
            simp [String.append_assoc]
          rw [heq]
          exact goodStr_affix _ _ _ (by decide) (by decide) (by decide) (by decide)
        · exact ih b hb
      · rw [show layerBlocksSpec rules (l :: rest) = layerBlocksSpec rules rest from by
          simp [layerBlocksSpec, hlk, hlen]] at hb
        exact ih b hb

/-- C3 (amended): with layers enabled and a non-empty configured order, over a
rules map all of whose rule strings are non-blank, `organizeByLayers` emits
exactly one leading `@layer a, b, …;` declaration listing the configured
order, followed (separated by blank lines) by one `@layer <name> {…}` block
per layer of the configured order that has rules, in that order; layers with
no rules produce no block.  (Under the default order this places the base
block before the utilities block when both are present.) -/
theorem c3_organizeByLayers_structure (rules : List (CascadeLayer × List String))
    (order : List CascadeLayer) (dl : CascadeLayer) (ho : order ≠ [])
    (hR : ∀ l rs, lookupLayer rules l = some rs → ∀ r ∈ rs, jsTrim r ≠ "") :
    organizeByLayers rules ⟨true, order, dl⟩
      = joinSep "\n\n"
          (("@layer " ++ joinSep ", " (order.map layerName) ++ ";")
            :: layerBlocksSpec rules order) := by
  have hdef : generateLayerDefinition ⟨true, order, dl⟩
      = "@layer " ++ joinSep ", " (order.map layerName) ++ ";" := by
    unfold generateLayerDefinition
    have : order.isEmpty = false := by
      cases order with
      | nil => exact absurd rfl ho
      | cons x t => rfl
    simp [this]
  have hgoodd : GoodStr ("@layer " ++ joinSep ", " (order.map layerName) ++ ";") :=
    goodStr_affix _ _ _ (by decide) (by decide) (by decide) (by decide)
  have hne := goodStr_ne_empty _ hgoodd
  unfold organizeByLayers
  simp only [Bool.not_true, Bool.false_eq_true, if_false]
  rw [hdef, if_neg hne]
  rw [show (["@layer " ++ joinSep ", " (order.map layerName) ++ ";", ""] : List String)
        ++ layerParts rules order
      = ("@layer " ++ joinSep ", " (order.map layerName) ++ ";") :: ""
        :: layerParts rules order from rfl]
  rw [layerParts_shape rules hR order]
  exact jsTrim_append_newline _
    (goodStr_joinSep _ _ hgoodd (layerBlocksSpec_good rules order))

/-- C3 counterexample: with layers enabled but an empty configured order, the
generated CSS is empty — it contains no leading `@layer …;` declaration at
all, contradicting the claim as stated for every enabled configuration. -/
theorem c3_emptyOrder_counterexample :
    organizeByLayers [(CascadeLayer.utilities, [".u \x7b color: red \x7d"])]
        ⟨true, [], CascadeLayer.utilities⟩ = ""
    ∧ jsStartsWith
        (organizeByLayers [(CascadeLayer.utilities, [".u \x7b color: red \x7d"])]
          ⟨true, [], CascadeLayer.utilities⟩) "@layer" = false := by
  decide

theorem lookupLayer_mem (rules : List (CascadeLayer × List String)) (l : CascadeLayer)
    (rs : List String) (h : lookupLayer rules l = some rs) : (l, rs) ∈ rules := by
  induction rules with
  | nil => simp [lookupLayer] at h
  | cons p t ih =>
    rcases p with ⟨k, v⟩
    by_cases hk : k = l
    · subst hk
      rw [lookupLayer, if_pos rfl] at h
      exact List.mem_cons.mpr (Or.inl (by rw [Option.some.injEq] at h; rw [h]))
    · rw [lookupLayer, if_neg hk] at h
      exact List.mem_cons.mpr (Or.inr (ih h))

/-- Witness for C3 at a concrete map: base and utilities rules produce the
declaration plus the base block before the utilities block; the empty layers
are omitted. -/
theorem c3_witness :
    ([CascadeLayer.reset, .base, .tokens, .recipes, .utilities] ≠ ([] : List CascadeLayer))
    ∧ organizeByLayers [(CascadeLayer.base, ["body \x7b margin: 0 \x7d"]),
        (CascadeLayer.utilities, [".u \x7b color: red \x7d"])] defaultLayerConfig
      = "@layer reset, base, tokens, recipes, utilities;\n\n@layer base \x7b\nbody \x7b margin: 0 \x7d\n\x7d\n\n@layer utilities \x7b\n.u \x7b color: red \x7d\n\x7d" := by
  constructor
  · decide
  · have h := c3_organizeByLayers_structure
      [(CascadeLayer.base, ["body \x7b margin: 0 \x7d"]),
       (CascadeLayer.utilities, [".u \x7b color: red \x7d"])]
      [CascadeLayer.reset, .base, .tokens, .recipes, .utilities] CascadeLayer.utilities
      (by decide)
      (by
        intro l rs hlk r hrr
        have hmem := lookupLayer_mem _ _ _ hlk
        simp at hmem
        rcases hmem with ⟨_, h2⟩ | ⟨_, h2⟩ <;> rw [h2] at hrr <;> simp at hrr <;>
          rw [hrr] <;> decide)
    rw [show defaultLayerConfig
        = (⟨true, [CascadeLayer.reset, .base, .tokens, .recipes, .utilities],
            CascadeLayer.utilities⟩ : LayerConfig) from rfl, h]
    decide

/-! ## C9, C10: LayerManager behavior -/

theorem lookupLayer_layerSet (rules : List (CascadeLayer × List String))
    (l q : CascadeLayer) (v : List String) :
    lookupLayer (layerSet rules l v) q = if q = l then some v else lookupLayer rules q := by
  induction rules with
  | nil =>
    by_cases h : q = l
    · simp [layerSet, lookupLayer, h]
    · have h' : ¬l = q := fun hh => h hh.symm
      simp [layerSet, lookupLayer, h, h']
  | cons kv t ih =>
    rcases kv with ⟨k', v'⟩
    by_cases h : k' = l
    · subst h
      by_cases hq : q = k'
      · simp [layerSet, lookupLayer, hq]
      · have hq' : ¬k' = q := fun hh => hq hh.symm
        simp [layerSet, lookupLayer, hq, hq']
    · by_cases hq : q = k'
      · have hqk : ¬q = l := fun hh => h ((hq.symm.trans hh))
        have hq' : k' = q := hq.symm
        simp [layerSet, lookupLayer, h, hq', hqk]
      · have hq' : ¬k' = q := fun hh => hq hh.symm
        simp [layerSet, lookupLayer, h, hq, hq', ih]

theorem lookupLayer_append_one (rules : List (CascadeLayer × List String))
    (l q : CascadeLayer) (v : List String) :
    lookupLayer (rules ++ [(l, v)]) q
      = (match lookupLayer rules q with
         | some w => some w
         | none => if q = l then some v else none) := by
  induction rules with
  | nil =>
    by_cases h : q = l
    · simp [lookupLayer, h]
    · have h' : ¬l = q := fun hh => h hh.symm
      simp [lookupLayer, h, h']
  | cons kv t ih =>
    rcases kv with ⟨k', v'⟩
    by_cases h : k' = q
    · simp [lookupLayer, h]
    · simp [lookupLayer, h, ih]

theorem layerSet_self (rules : List (CascadeLayer × List String)) (l : CascadeLayer)
    (s : List String) (h : lookupLayer rules l = some s) :
    layerSet rules l s = rules := by
  induction rules with
  | nil => simp [lookupLayer] at h
  | cons kv t ih =>
    rcases kv with ⟨k', v'⟩
    by_cases hk : k' = l
    · subst hk
      rw [lookupLayer, if_pos rfl, Option.some.injEq] at h
      simp [layerSet, h]
    · rw [lookupLayer, if_neg hk] at h
      simp [layerSet, hk, ih h]

theorem add_config (m : LayerManager) (css : String) (layer : CascadeLayer) :
    (m.add css layer).config = m.config := by
  unfold LayerManager.add
  cases lookupLayer m.rules layer <;>
    cases lookupLayer m.rules layer <;> rfl

theorem add_lookup (m : LayerManager) (css : String) (layer q : CascadeLayer) :
    lookupLayer (m.add css layer).rules q
      = if q = layer
        then some (if css ∈ m.getLayer layer then m.getLayer layer
                   else m.getLayer layer ++ [css])
        else lookupLayer m.rules q := by
  unfold LayerManager.add LayerManager.getLayer
  cases hlk : lookupLayer m.rules layer with
  | some s =>
    simp only [hlk, Option.getD_some]
    rw [lookupLayer_layerSet]
  | none =>
    simp only [hlk, Option.getD_none]
    have h1 : lookupLayer (m.rules ++ [(layer, [])]) layer = some [] := by
      rw [lookupLayer_append_one, hlk]
      simp
    simp only [h1]
    rw [lookupLayer_layerSet]
    by_cases hq : q = layer
    · simp [hq]
    · simp [hq, lookupLayer_append_one, hlk]
      cases hlq : lookupLayer m.rules q with
      | some w => simp
      | none => simp [hq]

theorem add_mem_noop (m : LayerManager) (r : String) (l : CascadeLayer)
    (s : List String) (h : lookupLayer m.rules l = some s) (hr : r ∈ s) :
    m.add r l = m := by
  unfold LayerManager.add
  simp only [h]
  rw [if_pos hr, layerSet_self m.rules l s h]

theorem getLayer_add_self (m : LayerManager) (r : String) (l : CascadeLayer) :
    (m.add r l).getLayer l
      = if r ∈ m.getLayer l then m.getLayer l else m.getLayer l ++ [r] := by
  have h := add_lookup m r l l
  rw [if_pos rfl] at h
  show (lookupLayer (m.add r l).rules l).getD [] = _
  rw [h]
  rfl

theorem getLayer_add_other (m : LayerManager) (r : String) (l q : CascadeLayer)
    (hq : q ≠ l) : (m.add r l).getLayer q = m.getLayer q := by
  have h := add_lookup m r l q
  rw [if_neg hq] at h
  show (lookupLayer (m.add r l).rules q).getD [] = _
  rw [h]
  rfl

theorem sumLen_layerSet (rules : List (CascadeLayer × List String)) (l : CascadeLayer)
    (v s : List String) (h : lookupLayer rules l = some s) :
    ((layerSet rules l v).map (fun p => p.2.length)).sum + s.length
      = (rules.map (fun p => p.2.length)).sum + v.length := by
  induction rules with
  | nil => simp [lookupLayer] at h
  | cons kv t ih =>
    rcases kv with ⟨k', w⟩
    by_cases hk : k' = l
    · subst hk
      rw [lookupLayer, if_pos rfl, Option.some.injEq] at h
      subst h
      simp [layerSet]
      omega
    · rw [lookupLayer, if_neg hk] at h
      have := ih h
      simp [layerSet, hk]
      omega

theorem size_add (m : LayerManager) (r : String) (l : CascadeLayer)
    (hr : r ∉ m.getLayer l) : (m.add r l).size = m.size + 1 := by
  unfold LayerManager.size LayerManager.add
  cases hlk : lookupLayer m.rules l with
  | some s =>
    have hgl : m.getLayer l = s := by
      unfold LayerManager.getLayer
      rw [hlk]
      rfl
    rw [hgl] at hr
    simp only [hlk]
    rw [if_neg hr]
    have := sumLen_layerSet m.rules l (s ++ [r]) s hlk
    simp only [List.length_append, List.length_singleton] at this
    omega
  | none =>
    have h1 : lookupLayer (m.rules ++ [(l, [])]) l = some [] := by
      rw [lookupLayer_append_one, hlk]
      simp
    simp only [hlk, h1]
    rw [if_neg (by simp : ¬r ∈ ([] : List String))]
    have := sumLen_layerSet (m.rules ++ [(l, [])]) l ([] ++ [r]) [] h1
    simp at this ⊢
    omega

theorem layerParts_congr (r1 r2 : List (CascadeLayer × List String))
    (order : List CascadeLayer)
    (h : ∀ l ∈ order, lookupLayer r1 l = lookupLayer r2 l) :
    layerParts r1 order = layerParts r2 order := by
  induction order with
  | nil => rfl
  | cons l rest ih =>
    have hl := h l (List.mem_cons_self l rest)
    have ih' := ih (fun x hx => h x (List.mem_cons_of_mem _ hx))
    have e1 : layerParts r1 (l :: rest)
        = (match lookupLayer r1 l with
           | some rs =>
             if rs.length > 0 then
               wrapInLayer (joinSep "\n" rs) l true :: "" :: layerParts r1 rest
             else layerParts r1 rest
           | none => layerParts r1 rest) := rfl
    have e2 : layerParts r2 (l :: rest)
        = (match lookupLayer r2 l with
           | some rs =>
             if rs.length > 0 then
               wrapInLayer (joinSep "\n" rs) l true :: "" :: layerParts r2 rest
             else layerParts r2 rest
           | none => layerParts r2 rest) := rfl
    rw [e1, e2, hl, ih']

theorem organizeByLayers_congr (r1 r2 : List (CascadeLayer × List String))
    (config : LayerConfig) (hen : config.enabled = true)
    (h : ∀ l ∈ config.order, lookupLayer r1 l = lookupLayer r2 l) :
    organizeByLayers r1 config = organizeByLayers r2 config := by
  unfold organizeByLayers
  rw [hen]
  simp only [Bool.not_true, Bool.false_eq_true, if_false]
  rw [layerParts_congr r1 r2 config.order h]

theorem generateCSS_add_overrides (m : LayerManager) (r : String)
    (hc : m.config = defaultLayerConfig) :
    (m.add r CascadeLayer.overrides).generateCSS = m.generateCSS := by
  unfold LayerManager.generateCSS
  rw [add_config, hc]
  apply organizeByLayers_congr
  · rfl
  · intro l hl
    rw [add_lookup]
    have hne : ¬l = CascadeLayer.overrides := by
      simp [defaultLayerConfig] at hl
      rcases hl with h | h | h | h | h <;> subst h <;> decide
    rw [if_neg hne]

theorem getLayer_nodup (m : LayerManager) (hw : LayerWf m) (l : CascadeLayer) :
    (m.getLayer l).Nodup := by
  unfold LayerManager.getLayer
  cases hlk : lookupLayer m.rules l with
  | none => simp
  | some s =>
    have := hw (l, s) (lookupLayer_mem _ _ _ hlk)
    simpa using this

/-- C9: adding the same rule string twice leaves the manager state unchanged
(`size` and `getLayer` included, and the rule appears exactly once), while
adding distinct fresh rules to a layer preserves their insertion order in
`getLayer`. -/
theorem c9_layerManager_set_semantics (m : LayerManager) (l : CascadeLayer)
    (r r1 r2 : String) (hw : LayerWf m) (h12 : r1 ≠ r2)
    (h1 : r1 ∉ m.getLayer l) (h2 : r2 ∉ m.getLayer l) :
    ((m.add r l).add r l = m.add r l)
    ∧ ((m.add r l).add r l).size = (m.add r l).size
    ∧ ((m.add r l).add r l).getLayer l = (m.add r l).getLayer l
    ∧ List.count r ((m.add r l).getLayer l) = 1
    ∧ ((m.add r1 l).add r2 l).getLayer l = m.getLayer l ++ [r1, r2] := by
  have hidem : (m.add r l).add r l = m.add r l := by
    refine add_mem_noop _ _ _
      (if r ∈ m.getLayer l then m.getLayer l else m.getLayer l ++ [r]) ?_ ?_
    · rw [add_lookup, if_pos rfl]
    · by_cases hm : r ∈ m.getLayer l
      · simp [hm]
      · simp [hm]
  refine ⟨hidem, by rw [hidem], by rw [hidem], ?_, ?_⟩
  · rw [getLayer_add_self]
    by_cases hm : r ∈ m.getLayer l
    · rw [if_pos hm]
      exact List.count_eq_one_of_mem (getLayer_nodup m hw l) hm
    · rw [if_neg hm]
      rw [List.count_append]
      have hz : List.count r (m.getLayer l) = 0 :=
        List.count_eq_zero.mpr hm
      simp [hz]
  · have hm1 : (m.add r1 l).getLayer l = m.getLayer l ++ [r1] := by
      rw [getLayer_add_self, if_neg h1]
    have hm2 : r2 ∉ (m.add r1 l).getLayer l := by
      rw [hm1]
      intro hmem
      rcases List.mem_append.mp hmem with hmem | hmem
      · exact h2 hmem
      · simp at hmem
        exact h12 hmem.symm
    rw [getLayer_add_self, if_neg hm2, hm1, List.append_assoc]
    rfl

/-- Witness for C9 on a fresh default manager: double-add is a no-op and two
distinct rules come back in insertion order. -/
theorem c9_witness :
    LayerWf (LayerManager.new defaultLayerConfig)
    ∧ (((LayerManager.new defaultLayerConfig).add ".a \x7b c: 1 \x7d" CascadeLayer.utilities).add
          ".a \x7b c: 1 \x7d" CascadeLayer.utilities
        = (LayerManager.new defaultLayerConfig).add ".a \x7b c: 1 \x7d" CascadeLayer.utilities)
    ∧ (((LayerManager.new defaultLayerConfig).add ".b \x7b d: 2 \x7d" CascadeLayer.utilities).add
          ".c \x7b e: 3 \x7d" CascadeLayer.utilities).getLayer CascadeLayer.utilities
        = [".b \x7b d: 2 \x7d", ".c \x7b e: 3 \x7d"] := by
  have h1 := c9_layerManager_set_semantics (LayerManager.new defaultLayerConfig)
    CascadeLayer.utilities ".a \x7b c: 1 \x7d" ".b \x7b d: 2 \x7d" ".c \x7b e: 3 \x7d"
    (by unfold LayerWf; decide) (by decide) (by decide) (by decide)
  refine ⟨by unfold LayerWf; decide, h1.1, ?_⟩
  rw [h1.2.2.2.2]
  decide

/-- C10: under the default configuration (order without `overrides`), a rule
added to the `overrides` layer is counted by `size()` and returned by
`getLayer`, but `generateCSS()` output is completely unchanged by the add —
the rule is silently dropped from the generated CSS (for a fresh manager the
output stays exactly the bare `@layer` declaration). -/
theorem c10_overrides_dropped (m : LayerManager) (r : String)
    (hc : m.config = defaultLayerConfig) (hr : r ∉ m.getLayer CascadeLayer.overrides) :
    (m.add r CascadeLayer.overrides).size = m.size + 1
    ∧ (m.add r CascadeLayer.overrides).getLayer CascadeLayer.overrides
        = m.getLayer CascadeLayer.overrides ++ [r]
    ∧ (m.add r CascadeLayer.overrides).generateCSS = m.generateCSS
    ∧ ((LayerManager.new defaultLayerConfig).add r CascadeLayer.overrides).generateCSS
        = "@layer reset, base, tokens, recipes, utilities;" := by
  refine ⟨size_add m r _ hr, ?_, generateCSS_add_overrides m r hc, ?_⟩
  · rw [getLayer_add_self, if_neg hr]
  · rw [generateCSS_add_overrides (LayerManager.new defaultLayerConfig) r rfl]
    decide

/-- Witness for C10 on a fresh default manager. -/
theorem c10_witness :
    ((LayerManager.new defaultLayerConfig).config = defaultLayerConfig)
    ∧ ((LayerManager.new defaultLayerConfig).add ".x \x7b color: red \x7d"
        CascadeLayer.overrides).size = (LayerManager.new defaultLayerConfig).size + 1
    ∧ ((LayerManager.new defaultLayerConfig).add ".x \x7b color: red \x7d"
        CascadeLayer.overrides).generateCSS
        = (LayerManager.new defaultLayerConfig).generateCSS := by
  have h := c10_overrides_dropped (LayerManager.new defaultLayerConfig)
    ".x \x7b color: red \x7d" rfl (by decide)
  exact ⟨rfl, h.1, h.2.2.1⟩

/-! ## C8: malformed rules are skipped -/

theorem addRuleToGroups_malformed (grouped : List (String × SelectorGroup))
    (rule : String) (h : parseRule rule = none) :
    addRuleToGroups grouped rule = grouped := by
  unfold addRuleToGroups
  rw [h]

/-- C8: grouping ignores every rule whose text fails the
`selector { decl }` parse — the result is exactly the grouping of the
well-formed rules, and appending a malformed rule never changes the
grouping of the batch (the function is total: no parse failure escapes). -/
theorem c8_groupRules_skips_malformed (rules : List String) :
    groupRulesBySelector rules
      = groupRulesBySelector (rules.filter (fun r => (parseRule r).isSome))
    ∧ ∀ bad, parseRule bad = none →
        groupRulesBySelector (rules ++ [bad]) = groupRulesBySelector rules := by
  constructor
  · suffices h : ∀ init : List (String × SelectorGroup),
        rules.foldl addRuleToGroups init
          = (rules.filter (fun r => (parseRule r).isSome)).foldl addRuleToGroups init by
      exact h []
    induction rules with
    | nil => intro init; rfl
    | cons r t ih =>
      intro init
      by_cases hp : (parseRule r).isSome
      · rw [List.filter_cons, if_pos (by simpa using hp), List.foldl_cons,
          List.foldl_cons]
        exact ih (addRuleToGroups init r)
      · have hnone : parseRule r = none := by
          cases hq : parseRule r with
          | none => rfl
          | some v => rw [hq] at hp; simp at hp
        rw [List.filter_cons, if_neg (by simpa using hp), List.foldl_cons,
          addRuleToGroups_malformed init r hnone]
        exact ih init
  · intro bad hbad
    unfold groupRulesBySelector
    rw [List.foldl_append]
    simp [addRuleToGroups_malformed _ bad hbad]

/-- Witness for C8: a junk string is skipped and leaves the grouping of the
well-formed rule untouched. -/
theorem c8_witness :
    parseRule "not-a-rule" = none
    ∧ groupRulesBySelector [".a \x7b color: red \x7d", "not-a-rule"]
        = groupRulesBySelector [".a \x7b color: red \x7d"] := by
  constructor
  · decide
  · exact (c8_groupRules_skips_malformed [".a \x7b color: red \x7d"]).2 "not-a-rule" (by decide)

/-! ## C4: list and scanner utilities for the nesting round trip -/

theorem splitFirst_append (c : Char) (A B : List Char) (h : c ∉ A) :
    splitFirst c (A ++ c :: B) = some (A, B) := by
  induction A with
  | nil => simp [splitFirst]
  | cons a A' ih =>
    have hac : ¬a = c := fun hh => h (by rw [hh]; exact List.mem_cons_self c A')
    have h' : c ∉ A' := fun hh => h (List.mem_cons_of_mem _ hh)
    rw [List.cons_append, splitFirst, if_neg hac, ih h']

theorem splitAllAux_sep (c : Char) (A B cur : List Char) (h : c ∉ A) :
    splitAllAux c (A ++ c :: B) cur = (cur.reverse ++ A) :: splitAllAux c B [] := by
  induction A generalizing cur with
  | nil => simp [splitAllAux]
  | cons a A' ih =>
    have hac : ¬a = c := fun hh => h (by rw [hh]; exact List.mem_cons_self c A')
    have h' : c ∉ A' := fun hh => h (List.mem_cons_of_mem _ hh)
    rw [List.cons_append, splitAllAux, if_neg hac, ih (a :: cur) h']
    simp

theorem splitAllAux_no_sep (c : Char) (A cur : List Char) (h : c ∉ A) :
    splitAllAux c A cur = [cur.reverse ++ A] := by
  induction A generalizing cur with
  | nil => simp [splitAllAux]
  | cons a A' ih =>
    have hac : ¬a = c := fun hh => h (by rw [hh]; exact List.mem_cons_self c A')
    have h' : c ∉ A' := fun hh => h (List.mem_cons_of_mem _ hh)
    rw [splitAllAux, if_neg hac, ih (a :: cur) h']
    simp

theorem splitAll_sep (c : Char) (A B : List Char) (h : c ∉ A) :
    splitAll c (A ++ c :: B) = A :: splitAll c B := by
  unfold splitAll
  rw [splitAllAux_sep c A B [] h]
  simp

theorem splitAll_no_sep (c : Char) (A : List Char) (h : c ∉ A) :
    splitAll c A = [A] := by
  unfold splitAll
  rw [splitAllAux_no_sep c A [] h]
  simp

theorem jsSet_fresh {α : Type} (k : String) (v : α) (l : List (String × α))
    (h : jsGet l k = none) : jsSet k v l = l ++ [(k, v)] := by
  induction l with
  | nil => rfl
  | cons kv t ih =>
    rcases kv with ⟨k', v'⟩
    by_cases hk : k' = k
    · rw [jsGet, if_pos hk] at h
      exact absurd h (by simp)
    · rw [jsGet, if_neg hk] at h
      rw [jsSet, if_neg hk, ih h, List.cons_append]

theorem jsGet_append_none {α : Type} (l l' : List (String × α)) (k : String)
    (h1 : jsGet l k = none) (h2 : jsGet l' k = none) : jsGet (l ++ l') k = none := by
  induction l with
  | nil => simpa using h2
  | cons kv t ih =>
    rcases kv with ⟨k', v'⟩
    by_cases hk : k' = k
    · rw [jsGet, if_pos hk] at h1
      exact absurd h1 (by simp)
    · rw [jsGet, if_neg hk] at h1
      rw [List.cons_append, jsGet, if_neg hk]
      exact ih h1

theorem foldl_jsSet_fresh {α : Type} (props : List (String × α)) :
    ∀ acc : List (String × α),
      (∀ kv ∈ props, jsGet acc kv.1 = none) →
      props.Pairwise (fun a b => a.1 ≠ b.1) →
      props.foldl (fun b kv => jsSet kv.1 kv.2 b) acc = acc ++ props := by
  induction props with
  | nil => intro acc _ _; simp
  | cons kv t ih =>
    intro acc hfresh hnd
    rw [List.foldl_cons, jsSet_fresh kv.1 kv.2 acc (hfresh kv (List.mem_cons_self kv t))]
    rw [ih (acc ++ [(kv.1, kv.2)]) ?_ hnd.of_cons]
    · simp
    · intro kv' hkv'
      apply jsGet_append_none
      · exact hfresh kv' (List.mem_cons_of_mem _ hkv')
      · have hne : kv.1 ≠ kv'.1 := (List.pairwise_cons.mp hnd).1 kv' hkv'
        simp [jsGet, fun hh : kv.1 = kv'.1 => hne hh]

theorem lowerDash_props (c : Char) (h : lowerDash c = true) :
    c ≠ ':' ∧ c ≠ '[' ∧ c ≠ '{' ∧ c ≠ '}' ∧ wsChar c = false := by
  unfold lowerDash at h
  rcases Bool.or_eq_true_iff.mp h with h' | h'
  · have hb := Bool.and_eq_true_iff.mp h'
    have h1 : 97 ≤ c.toNat := by exact_mod_cast of_decide_eq_true hb.1
    have h2 : c.toNat ≤ 122 := by exact_mod_cast of_decide_eq_true hb.2
    refine ⟨?_, ?_, ?_, ?_, ?_⟩
    · intro hc; subst hc; exact absurd h1 (by decide)
    · intro hc; subst hc; exact absurd h1 (by decide)
    · intro hc; subst hc; exact absurd h2 (by decide)
    · intro hc; subst hc; exact absurd h2 (by decide)
    · unfold wsChar
      simp only [Bool.or_eq_false_iff, decide_eq_false_iff_not]
      refine ⟨⟨⟨⟨⟨?_, ?_⟩, ?_⟩, ?_⟩, ?_⟩, ?_⟩ <;>
        · intro hc; subst hc; exact absurd h1 (by decide)
  · have hc : c = '-' := of_decide_eq_true h'
    subst hc
    refine ⟨by decide, by decide, by decide, by decide, by decide⟩

theorem stripPseudoAux_nil (f : Nat) : stripPseudoAux f [] = [] := by
  cases f <;> rfl

theorem stripPseudoAux_clean_step (f : Nat) (c : Char) (rest : List Char)
    (h1 : c ≠ ':') (h2 : c ≠ '[') :
    stripPseudoAux (f + 1) (c :: rest) = c :: stripPseudoAux f rest := by
  simp only [stripPseudoAux]
  rw [if_neg h1, if_neg h2]

theorem stripPseudoAux_clean (A : List Char)
    (h : ∀ c ∈ A, c ≠ ':' ∧ c ≠ '[') : ∀ f, stripPseudoAux f A = A := by
  induction A with
  | nil => intro f; exact stripPseudoAux_nil f
  | cons c A' ih =>
    intro f
    cases f with
    | zero => rfl
    | succ f' =>
      have hc := h c (List.mem_cons_self c A')
      rw [stripPseudoAux_clean_step f' c A' hc.1 hc.2,
        ih (fun x hx => h x (List.mem_cons_of_mem _ hx)) f']

theorem stripPseudoAux_clean_pfx (A : List Char)
    (h : ∀ c ∈ A, c ≠ ':' ∧ c ≠ '[') :
    ∀ (B : List Char) (f : Nat),
      stripPseudoAux (A.length + f) (A ++ B) = A ++ stripPseudoAux f B := by
  induction A with
  | nil => intro B f; simp
  | cons c A' ih =>
    intro B f
    have hc := h c (List.mem_cons_self c A')
    have hlen : (c :: A').length + f = (A'.length + f) + 1 := by
      simp [List.length_cons]
      omega
    rw [hlen, List.cons_append,
      stripPseudoAux_clean_step (A'.length + f) c (A' ++ B) hc.1 hc.2,
      ih (fun x hx => h x (List.mem_cons_of_mem _ hx)) B f, List.cons_append]

theorem takeWhile_all_append (p : Char → Bool) (w rest : List Char)
    (hw : ∀ c ∈ w, p c = true)
    (hrest : ∀ c, rest.head? = some c → p c = false) :
    (w ++ rest).takeWhile p = w ∧ (w ++ rest).dropWhile p = rest := by
  induction w with
  | nil =>
    cases rest with
    | nil => exact ⟨rfl, rfl⟩
    | cons r t =>
      have := hrest r rfl
      simp [List.takeWhile_cons, List.dropWhile_cons, this]
  | cons a w' ih =>
    have ha := hw a (List.mem_cons_self a w')
    have ih' := ih (fun x hx => hw x (List.mem_cons_of_mem _ hx))
    simp [List.takeWhile_cons, List.dropWhile_cons, ha, ih'.1, ih'.2]

theorem segWf_pseudo_facts (w : List Char) (hw : segWf (Seg.pseudo w) = true) :
    w ≠ [] ∧ ∀ c ∈ w, lowerDash c = true := by
  unfold segWf at hw
  have := Bool.and_eq_true_iff.mp hw
  exact ⟨by simpa using this.1, fun c hc => List.all_eq_true.mp this.2 c hc⟩

theorem segWf_pseudoElt_facts (w : List Char) (hw : segWf (Seg.pseudoElt w) = true) :
    w ≠ [] ∧ ∀ c ∈ w, lowerDash c = true := by
  unfold segWf at hw
  have := Bool.and_eq_true_iff.mp hw
  exact ⟨by simpa using this.1, fun c hc => List.all_eq_true.mp this.2 c hc⟩

theorem segWf_attr_facts (inner : List Char) (hw : segWf (Seg.attr inner) = true) :
    inner ≠ [] ∧ ∀ c ∈ inner,
      c ≠ ']' ∧ c ≠ '{' ∧ c ≠ '}' ∧ wsChar c = false := by
  unfold segWf at hw
  have := Bool.and_eq_true_iff.mp hw
  refine ⟨by simpa using this.1, fun c hc => ?_⟩
  have h := List.all_eq_true.mp this.2 c hc
  simp only [Bool.and_eq_true_iff, decide_eq_true_eq, Bool.not_eq_true'] at h
  exact ⟨h.1.1.1, h.1.1.2, h.1.2, h.2⟩

theorem strip_seg (s : Seg) (rest : List Char) (f : Nat) (hw : segWf s = true)
    (hrest : ∀ c, rest.head? = some c → lowerDash c = false) :
    stripPseudoAux (f + 1) (segChars s ++ rest) = stripPseudoAux f rest := by
  cases s with
  | pseudo w =>
    obtain ⟨hwne, hall⟩ := segWf_pseudo_facts w hw
    cases w with
    | nil => exact absurd rfl hwne
    | cons w0 w' =>
      have htw := takeWhile_all_append lowerDash (w0 :: w') rest hall hrest
      have hw0 := lowerDash_props w0 (hall w0 (List.mem_cons_self w0 w'))
      have hld : lowerDash w0 = true := hall w0 (List.mem_cons_self w0 w')
      have hdw : List.dropWhile lowerDash (w' ++ rest) = rest := by
        have h2 := htw.2
        rwa [List.cons_append, List.dropWhile_cons, if_pos hld] at h2
      show stripPseudoAux (f + 1) (':' :: ((w0 :: w') ++ rest)) = stripPseudoAux f rest
      simp [stripPseudoAux, List.cons_append, List.headD_cons, hw0.1, hld, hdw]
  | pseudoElt w =>
    obtain ⟨hwne, hall⟩ := segWf_pseudoElt_facts w hw
    have htw := takeWhile_all_append lowerDash w rest hall hrest
    show stripPseudoAux (f + 1) (':' :: (':' :: (w ++ rest))) = stripPseudoAux f rest
    simp [stripPseudoAux, List.headD_cons, htw.1, htw.2, hwne]
  | attr inner =>
    obtain ⟨hine, hall⟩ := segWf_attr_facts inner hw
    have hnb : ']' ∉ inner := fun hm => (hall ']' hm).1 rfl
    have hsp : splitFirst ']' (inner ++ ']' :: rest) = some (inner, rest) :=
      splitFirst_append ']' inner rest hnb
    have harr : segChars (Seg.attr inner) ++ rest = '[' :: (inner ++ ']' :: rest) := by
      simp [segChars, List.append_assoc]
    rw [harr]
    simp [stripPseudoAux, hsp, hine]

theorem suffixChars_head_not_lowerDash (s : Seg) (segs : List Seg) (hw : segWf s = true) :
    ∀ c, (suffixChars (s :: segs)).head? = some c → lowerDash c = false := by
  intro c hc
  cases s with
  | pseudo w =>
    simp only [suffixChars, List.map_cons, List.flatten_cons, segChars,
      List.cons_append, List.head?_cons, Option.some.injEq] at hc
    rw [← hc]
    decide
  | pseudoElt w =>
    simp only [suffixChars, List.map_cons, List.flatten_cons, segChars,
      List.cons_append, List.head?_cons, Option.some.injEq] at hc
    rw [← hc]
    decide
  | attr inner =>
    simp only [suffixChars, List.map_cons, List.flatten_cons, segChars,
      List.cons_append, List.head?_cons, Option.some.injEq] at hc
    rw [← hc]
    decide

theorem strip_suffix (segs : List Seg) (rest : List Char) (f : Nat)
    (hw : ∀ s ∈ segs, segWf s = true)
    (hrest : ∀ c, rest.head? = some c → lowerDash c = false) :
    stripPseudoAux (segs.length + f) (suffixChars segs ++ rest) = stripPseudoAux f rest := by
  induction segs generalizing rest f with
  | nil => simp [suffixChars]
  | cons s segs' ih =>
    have hws := hw s (List.mem_cons_self s segs')
    have hlen : (s :: segs').length + f = (segs'.length + f) + 1 := by
      simp [List.length_cons]
      omega
    have hsfx : suffixChars (s :: segs') ++ rest
        = segChars s ++ (suffixChars segs' ++ rest) := by
      simp [suffixChars, List.append_assoc]
    rw [hlen, hsfx, strip_seg s (suffixChars segs' ++ rest) (segs'.length + f) hws ?_]
    · exact ih rest f (fun x hx => hw x (List.mem_cons_of_mem _ hx)) hrest
    · intro c hc
      cases hsfx2 : suffixChars segs' with
      | nil =>
        rw [hsfx2] at hc
        simp only [List.nil_append] at hc
        exact hrest c hc
      | cons a t =>
        rw [hsfx2] at hc
        simp only [List.cons_append, List.head?_cons, Option.some.injEq] at hc
        cases segs' with
        | nil => simp [suffixChars] at hsfx2
        | cons s2 segs'' =>
          have hw2 := hw s2 (List.mem_cons_of_mem _ (List.mem_cons_self s2 segs''))
          have hhd := suffixChars_head_not_lowerDash s2 segs'' hw2 a
            (by rw [hsfx2]; rfl)
          rw [← hc]
          exact hhd

theorem dropWhile_ws_pfx (σ X : List Char) (hσ : ∀ c ∈ σ, wsChar c = true) :
    List.dropWhile wsChar (σ ++ X) = List.dropWhile wsChar X := by
  induction σ with
  | nil => rfl
  | cons a t ih =>
    rw [List.cons_append, List.dropWhile_cons, if_pos (hσ a (List.mem_cons_self a t))]
    exact ih (fun c hc => hσ c (List.mem_cons_of_mem _ hc))

theorem trimChars_ws_pfx (σ X : List Char) (hσ : ∀ c ∈ σ, wsChar c = true) :
    trimChars (σ ++ X) = trimChars X := by
  unfold trimChars
  rw [dropWhile_ws_pfx σ X hσ]

theorem trimChars_append_ws (X : List Char) (w : Char) (hws : wsChar w = true)
    (h0 : X ≠ []) (h1 : wsChar (X.headD ' ') = false)
    (h2 : wsChar (X.getLastD ' ') = false) :
    trimChars (X ++ [w]) = X := by
  cases X with
  | nil => exact absurd rfl h0
  | cons c t =>
    rw [List.headD_cons] at h1
    unfold trimChars
    rw [List.cons_append, List.dropWhile_cons, if_neg (by simp [h1])]
    have hrev : (c :: (t ++ [w])).reverse = w :: (c :: t).reverse := by
      rw [← List.cons_append, List.reverse_append]
      rfl
    rw [hrev, List.dropWhile_cons, if_pos hws]
    have hr : (c :: t).reverse.dropWhile wsChar = (c :: t).reverse := by
      apply dropWhile_eq_self_of_head
      intro x hx
      rw [List.head?_reverse] at hx
      have hlast : (c :: t).getLastD ' ' = x := by
        rw [List.getLastD_eq_getLast?, hx]
        rfl
      rw [← hlast]
      exact h2
    rw [hr, List.reverse_reverse]

theorem trimChars_decls (Dd : List Char)
    (h : Dd = [] ∨ wsChar (Dd.headD ' ') = false) :
    trimChars (' ' :: (Dd ++ [';', ' '])) = Dd ++ [';'] := by
  unfold trimChars
  rw [List.dropWhile_cons, if_pos (by decide)]
  have hd : List.dropWhile wsChar (Dd ++ [';', ' ']) = Dd ++ [';', ' '] := by
    cases Dd with
    | nil => decide
    | cons c t =>
      rcases h with h | h
      · exact absurd h (by simp)
      · rw [List.headD_cons] at h
        rw [List.cons_append, List.dropWhile_cons, if_neg (by simp [h])]
  rw [hd]
  have hrev : (Dd ++ [';', ' ']).reverse = ' ' :: ';' :: Dd.reverse := by
    rw [show (Dd ++ [';', ' ']) = (Dd ++ [';']) ++ [' '] from by simp,
      List.reverse_append, show (Dd ++ [';']).reverse = ';' :: Dd.reverse from by
        rw [List.reverse_append]; rfl]
    rfl
  rw [hrev, List.dropWhile_cons, if_pos (by decide), List.dropWhile_cons,
    if_neg (by decide)]
  rw [show (';' :: Dd.reverse).reverse = Dd ++ [';'] from by simp]

theorem suffixChars_props (segs : List Seg) (hw : ∀ s ∈ segs, segWf s = true) :
    ∀ c ∈ suffixChars segs, wsChar c = false ∧ c ≠ '{' ∧ c ≠ '}' := by
  intro c hc
  unfold suffixChars at hc
  rw [List.mem_flatten] at hc
  obtain ⟨l, hl, hcl⟩ := hc
  rw [List.mem_map] at hl
  obtain ⟨s, hs, rfl⟩ := hl
  have hws := hw s hs
  cases s with
  | pseudo w =>
    obtain ⟨_, hall⟩ := segWf_pseudo_facts w hws
    rcases List.mem_cons.mp hcl with rfl | hcw
    · exact ⟨by decide, by decide, by decide⟩
    · have := lowerDash_props c (hall c hcw)
      exact ⟨this.2.2.2.2, this.2.2.1, this.2.2.2.1⟩
  | pseudoElt w =>
    obtain ⟨_, hall⟩ := segWf_pseudoElt_facts w hws
    rcases List.mem_cons.mp hcl with rfl | hcw
    · exact ⟨by decide, by decide, by decide⟩
    · rcases List.mem_cons.mp hcw with rfl | hcw'
      · exact ⟨by decide, by decide, by decide⟩
      · have := lowerDash_props c (hall c hcw')
        exact ⟨this.2.2.2.2, this.2.2.1, this.2.2.2.1⟩
  | attr inner =>
    obtain ⟨_, hall⟩ := segWf_attr_facts inner hws
    rcases List.mem_cons.mp hcl with rfl | hcw
    · exact ⟨by decide, by decide, by decide⟩
    · rcases List.mem_append.mp hcw with hci | hcb
      · have := hall c hci
        exact ⟨this.2.2.2, this.2.1, this.2.2.1⟩
      · have : c = ']' := by simpa using hcb
        subst this
        exact ⟨by decide, by decide, by decide⟩

theorem suffixChars_ne_nil (segs : List Seg) (h : segs ≠ []) :
    suffixChars segs ≠ [] := by
  cases segs with
  | nil => exact absurd rfl h
  | cons s t =>
    cases s <;> simp [suffixChars, segChars]

theorem declToken_facts (s : String) (h : declToken s = true) :
    s.data ≠ [] ∧ (∀ c ∈ s.data, declChar c = true)
      ∧ wsChar (s.data.headD ' ') = false ∧ wsChar (s.data.getLastD ' ') = false := by
  unfold declToken at h
  simp only [Bool.and_eq_true_iff] at h
  refine ⟨by simpa using h.1.1.1, fun c hc => List.all_eq_true.mp h.1.1.2 c hc,
    by simpa using h.1.2, by simpa using h.2⟩

theorem declChar_facts (c : Char) (h : declChar c = true) :
    c ≠ ':' ∧ c ≠ ';' ∧ c ≠ '{' ∧ c ≠ '}' := by
  unfold declChar at h
  simp only [Bool.and_eq_true_iff, decide_eq_true_eq] at h
  exact ⟨h.1.1.1.1, h.1.1.1.2, h.1.1.2, h.1.2⟩

theorem declLine_nil : (declLine []).data = [] := rfl

theorem declLine_single (p v : String) :
    (declLine [(p, v)]).data = p.data ++ ':' :: ' ' :: v.data := by
  show ((p ++ ": " ++ v) : String).data = p.data ++ ':' :: ' ' :: v.data
  simp [String.data_append]

theorem declLine_cons (p v : String) (kv2 : String × String)
    (rest : List (String × String)) :
    (declLine ((p, v) :: kv2 :: rest)).data
      = (p.data ++ ':' :: ' ' :: v.data) ++ ';' :: ' '
          :: (declLine (kv2 :: rest)).data := by
  show ((p ++ ": " ++ v) ++ "; " ++ joinSep "; " ((kv2 :: rest).map
      (fun kv => kv.1 ++ ": " ++ kv.2))).data = _
  simp [String.data_append, declLine]

theorem declLine_no_braces (props : List (String × String))
    (hw : ∀ kv ∈ props, declToken kv.1 = true ∧ declToken kv.2 = true) :
    ∀ c ∈ (declLine props).data, c ≠ '{' ∧ c ≠ '}' := by
  induction props with
  | nil => intro c hc; rw [declLine_nil] at hc; exact absurd hc (by simp)
  | cons kv rest ih =>
    rcases kv with ⟨p, v⟩
    have hp := declToken_facts p (hw (p, v) (List.mem_cons_self _ _)).1
    have hv := declToken_facts v (hw (p, v) (List.mem_cons_self _ _)).2
    intro c hc
    cases rest with
    | nil =>
      rw [declLine_single] at hc
      rcases List.mem_append.mp hc with h | h
      · have := declChar_facts c (hp.2.1 c h)
        exact ⟨this.2.2.1, this.2.2.2⟩
      · rcases List.mem_cons.mp h with rfl | h
        · exact ⟨by decide, by decide⟩
        · rcases List.mem_cons.mp h with rfl | h
          · exact ⟨by decide, by decide⟩
          · have := declChar_facts c (hv.2.1 c h)
            exact ⟨this.2.2.1, this.2.2.2⟩
    | cons kv2 rest' =>
      rw [declLine_cons] at hc
      rcases List.mem_append.mp hc with h | h
      · rcases List.mem_append.mp h with h | h
        · have := declChar_facts c (hp.2.1 c h)
          exact ⟨this.2.2.1, this.2.2.2⟩
        · rcases List.mem_cons.mp h with rfl | h
          · exact ⟨by decide, by decide⟩
          · rcases List.mem_cons.mp h with rfl | h
            · exact ⟨by decide, by decide⟩
            · have := declChar_facts c (hv.2.1 c h)
              exact ⟨this.2.2.1, this.2.2.2⟩
      · rcases List.mem_cons.mp h with rfl | h
        · exact ⟨by decide, by decide⟩
        · rcases List.mem_cons.mp h with rfl | h
          · exact ⟨by decide, by decide⟩
          · exact ih (fun x hx => hw x (List.mem_cons_of_mem _ hx)) c h

theorem declLine_head (p v : String) (rest : List (String × String))
    (hp : p.data ≠ []) :
    (declLine ((p, v) :: rest)).data.headD ' ' = p.data.headD ' ' := by
  cases rest with
  | nil =>
    rw [declLine_single]
    exact headD_append _ _ _ hp
  | cons kv2 rest' =>
    rw [declLine_cons]
    rw [headD_append _ _ _ (by simp [hp] : (p.data ++ ':' :: ' ' :: v.data) ≠ [])]
    exact headD_append _ _ _ hp

theorem headD_mem {α : Type} (l : List α) (d : α) (h : l ≠ []) : l.headD d ∈ l := by
  cases l with
  | nil => exact absurd rfl h
  | cons a t => simp

theorem getLastD_mem {α : Type} (l : List α) (d : α) (h : l ≠ []) :
    l.getLastD d ∈ l := by
  induction l generalizing d with
  | nil => exact absurd rfl h
  | cons a t ih =>
    rw [List.getLastD_cons]
    cases t with
    | nil => simp [List.getLastD]
    | cons b t' => exact List.mem_cons_of_mem _ (ih a (by simp))

theorem cleanSelectorChar_facts (c : Char) (h : cleanSelectorChar c = true) :
    wsChar c = false ∧ c ≠ ':' ∧ c ≠ '[' ∧ c ≠ '{' ∧ c ≠ '}' := by
  unfold cleanSelectorChar at h
  simp only [Bool.and_eq_true_iff, Bool.not_eq_true', decide_eq_true_eq] at h
  exact ⟨h.1.1.1.1.1, h.1.1.1.1.2, h.1.1.1.2, h.1.1.2, h.1.2⟩

theorem cleanSelector_facts (s : String) (h : CleanSelector s = true) :
    s.data ≠ [] ∧ ∀ c ∈ s.data,
      wsChar c = false ∧ c ≠ ':' ∧ c ≠ '[' ∧ c ≠ '{' ∧ c ≠ '}' := by
  unfold CleanSelector at h
  simp only [Bool.and_eq_true_iff] at h
  exact ⟨by simpa using h.1,
    fun c hc => cleanSelectorChar_facts c (List.all_eq_true.mp h.2 c hc)⟩

theorem parseDeclSeg_no_colon (acc : List (String × String)) (seg : List Char)
    (h : ':' ∉ seg) : parseDeclSeg acc seg = acc := by
  unfold parseDeclSeg
  rw [splitAll_no_sep ':' seg h]

theorem parseDeclSeg_segment (acc : List (String × String)) (σ : List Char)
    (p v : String) (hσ : ∀ c ∈ σ, wsChar c = true)
    (hp : declToken p = true) (hv : declToken v = true) :
    parseDeclSeg acc (σ ++ (p.data ++ ':' :: ' ' :: v.data)) = jsSet p v acc := by
  obtain ⟨hpne, hpall, hph, hpl⟩ := declToken_facts p hp
  obtain ⟨hvne, hvall, hvh, hvl⟩ := declToken_facts v hv
  have hnc : ':' ∉ σ ++ p.data := by
    intro hm
    rcases List.mem_append.mp hm with hm | hm
    · exact absurd (hσ _ hm) (by decide)
    · exact (declChar_facts _ (hpall _ hm)).1 rfl
  have hnc2 : ':' ∉ ' ' :: v.data := by
    intro hm
    rcases List.mem_cons.mp hm with hm | hm
    · exact absurd hm (by decide)
    · exact (declChar_facts _ (hvall _ hm)).1 rfl
  have harr : σ ++ (p.data ++ ':' :: ' ' :: v.data)
      = (σ ++ p.data) ++ ':' :: (' ' :: v.data) := by
    simp [List.append_assoc]
  have hsplit : splitAll ':' ((σ ++ p.data) ++ ':' :: (' ' :: v.data))
      = (σ ++ p.data) :: [' ' :: v.data] := by
    rw [splitAll_sep ':' _ _ hnc, splitAll_no_sep ':' _ hnc2]
  have htp : trimChars (σ ++ p.data) = p.data := by
    rw [trimChars_ws_pfx σ p.data hσ, trimChars_eq_self p.data hph hpl]
  have htv : trimChars (' ' :: v.data) = v.data := by
    rw [show (' ' :: v.data) = [' '] ++ v.data from rfl,
      trimChars_ws_pfx [' '] v.data (by intro c hc; simp at hc; subst hc; decide),
      trimChars_eq_self v.data hvh hvl]
  have hpe : (trimChars (σ ++ p.data)).isEmpty = false := by
    rw [htp]
    cases hx : p.data with
    | nil => exact absurd hx hpne
    | cons a t => rfl
  have hve : (trimChars (' ' :: v.data)).isEmpty = false := by
    rw [htv]
    cases hx : v.data with
    | nil => exact absurd hx hvne
    | cons a t => rfl
  rw [harr]
  unfold parseDeclSeg
  rw [hsplit]
  rw [show ((match (σ ++ p.data) :: [' ' :: v.data] with
      | p :: v :: _ =>
        let p' := trimChars p
        let v' := trimChars v
        if p'.isEmpty || v'.isEmpty then acc
        else jsSet (String.mk p') (String.mk v') acc
      | _ => acc) : List (String × String))
    = if (trimChars (σ ++ p.data)).isEmpty || (trimChars (' ' :: v.data)).isEmpty then acc
      else jsSet (String.mk (trimChars (σ ++ p.data))) (String.mk (trimChars (' ' :: v.data))) acc
    from rfl]
  rw [hpe, hve, htp, htv]
  rfl

theorem parse_decls (props : List (String × String)) :
    ∀ (σ : List Char) (acc : List (String × String)),
      (∀ c ∈ σ, wsChar c = true) →
      props.Pairwise (fun a b => a.1 ≠ b.1) →
      (∀ kv ∈ props, declToken kv.1 = true ∧ declToken kv.2 = true) →
      (∀ kv ∈ props, jsGet acc kv.1 = none) →
      (splitAll ';' (σ ++ (declLine props).data ++ [';'])).foldl parseDeclSeg acc
        = acc ++ props := by
  induction props with
  | nil =>
    intro σ acc hσ _ _ _
    have h1 : σ ++ (declLine []).data ++ [';'] = σ ++ ';' :: [] := by
      rw [declLine_nil]
      simp
    rw [h1, splitAll_sep ';' σ [] (fun hm => absurd (hσ _ hm) (by decide)),
      splitAll_no_sep ';' [] (by simp)]
    rw [List.foldl_cons,
      parseDeclSeg_no_colon acc σ (fun hm => absurd (hσ _ hm) (by decide)),
      List.foldl_cons, parseDeclSeg_no_colon acc [] (by simp), List.foldl_nil,
      List.append_nil]
  | cons kv rest ih =>
    intro σ acc hσ hnd htok hfresh
    rcases kv with ⟨p, v⟩
    have hptok := (htok (p, v) (List.mem_cons_self _ _)).1
    have hvtok := (htok (p, v) (List.mem_cons_self _ _)).2
    obtain ⟨hpne, hpall, _, _⟩ := declToken_facts p hptok
    obtain ⟨hvne, hvall, _, _⟩ := declToken_facts v hvtok
    have hsegp : ';' ∉ σ ++ (p.data ++ ':' :: ' ' :: v.data) := by
      intro hm
      rcases List.mem_append.mp hm with hm | hm
      · exact absurd (hσ _ hm) (by decide)
      · rcases List.mem_append.mp hm with hm | hm
        · exact (declChar_facts _ (hpall _ hm)).2.1 rfl
        · rcases List.mem_cons.mp hm with hm | hm
          · exact absurd hm (by decide)
          · rcases List.mem_cons.mp hm with hm | hm
            · exact absurd hm (by decide)
            · exact (declChar_facts _ (hvall _ hm)).2.1 rfl
    have hfreshp := hfresh (p, v) (List.mem_cons_self _ _)
    cases rest with
    | nil =>
      have harr : σ ++ (declLine [(p, v)]).data ++ [';']
          = (σ ++ (p.data ++ ':' :: ' ' :: v.data)) ++ ';' :: [] := by
        rw [declLine_single]
      rw [harr, splitAll_sep ';' _ [] hsegp, splitAll_no_sep ';' [] (by simp)]
      rw [List.foldl_cons, parseDeclSeg_segment acc σ p v hσ hptok hvtok]
      rw [List.foldl_cons, parseDeclSeg_no_colon _ [] (by simp), List.foldl_nil]
      rw [jsSet_fresh p v acc hfreshp]
    | cons kv2 rest' =>
      have harr : σ ++ (declLine ((p, v) :: kv2 :: rest')).data ++ [';']
          = (σ ++ (p.data ++ ':' :: ' ' :: v.data))
              ++ ';' :: ([' '] ++ (declLine (kv2 :: rest')).data ++ [';']) := by
        rw [declLine_cons]
        simp [List.append_assoc]
      rw [harr, splitAll_sep ';' _ _ hsegp]
      rw [List.foldl_cons, parseDeclSeg_segment acc σ p v hσ hptok hvtok]
      rw [jsSet_fresh p v acc hfreshp]
      rw [ih [' '] (acc ++ [(p, v)]) (by intro c hc; simp at hc; subst hc; decide)
        hnd.of_cons (fun x hx => htok x (List.mem_cons_of_mem _ hx)) ?_]
      · simp
      · intro kv' hkv'
        apply jsGet_append_none
        · exact hfresh kv' (List.mem_cons_of_mem _ hkv')
        · have hne2 : p ≠ kv'.1 := (List.pairwise_cons.mp hnd).1 kv' hkv'
          simp [jsGet, fun hh : p = kv'.1 => hne2 hh]

theorem declLine_head_ws (props : List (String × String))
    (htok : ∀ kv ∈ props, declToken kv.1 = true ∧ declToken kv.2 = true) :
    (declLine props).data = [] ∨ wsChar ((declLine props).data.headD ' ') = false := by
  cases props with
  | nil => exact Or.inl declLine_nil
  | cons kv rest =>
    rcases kv with ⟨p, v⟩
    have hptok := (htok (p, v) (List.mem_cons_self _ _)).1
    obtain ⟨hpne, _, hph, _⟩ := declToken_facts p hptok
    right
    rw [declLine_head p v rest hpne]
    exact hph

theorem parseRule_generic (X : String) (props : List (String × String))
    (hne : X.data ≠ []) (hnb : '{' ∉ X.data)
    (hh : wsChar (X.data.headD ' ') = false)
    (hl : wsChar (X.data.getLastD ' ') = false)
    (hnd : props.Pairwise (fun a b => a.1 ≠ b.1))
    (htok : ∀ kv ∈ props, declToken kv.1 = true ∧ declToken kv.2 = true) :
    parseRule (X ++ " \x7b " ++ declLine props ++ "; \x7d") = some ⟨X, props⟩ := by
  have h1 : (" \x7b " : String).data = [' ', '{', ' '] := rfl
  have h2 : ("; \x7d" : String).data = [';', ' ', '}'] := rfl
  have hdata : (X ++ " \x7b " ++ declLine props ++ "; \x7d").data
      = (X.data ++ [' '])
          ++ '{' :: ((' ' :: ((declLine props).data ++ [';', ' '])) ++ '}' :: []) := by
    simp [String.data_append, h1, h2]
  have hD := declLine_no_braces props htok
  have hs1 : splitFirst '{'
        ((X.data ++ [' '])
          ++ '{' :: ((' ' :: ((declLine props).data ++ [';', ' '])) ++ '}' :: []))
      = some (X.data ++ [' '],
          (' ' :: ((declLine props).data ++ [';', ' '])) ++ '}' :: []) := by
    apply splitFirst_append
    intro hm
    rcases List.mem_append.mp hm with hm | hm
    · exact hnb hm
    · exact absurd hm (by decide)
  have hs2 : splitFirst '}' ((' ' :: ((declLine props).data ++ [';', ' '])) ++ '}' :: [])
      = some (' ' :: ((declLine props).data ++ [';', ' ']), []) := by
    apply splitFirst_append
    intro hm
    rcases List.mem_cons.mp hm with hm | hm
    · exact absurd hm (by decide)
    · rcases List.mem_append.mp hm with hm | hm
      · exact (hD '}' hm).2 rfl
      · exact absurd hm (by decide)
  have hselne : (X.data ++ [' ']).isEmpty = false := by
    cases hx : X.data with
    | nil => exact absurd hx hne
    | cons a t => rfl
  have ht1 : trimChars (X.data ++ [' ']) = X.data :=
    trimChars_append_ws X.data ' ' (by decide) hne hh hl
  have ht2 : trimChars (' ' :: ((declLine props).data ++ [';', ' ']))
      = (declLine props).data ++ [';'] :=
    trimChars_decls (declLine props).data (declLine_head_ws props htok)
  have ht3 : (splitAll ';' ((declLine props).data ++ [';'])).foldl parseDeclSeg []
      = props := by
    have h := parse_decls props [] [] (by simp) hnd htok (fun kv _ => rfl)
    simpa using h
  unfold parseRule
  rw [hdata, hs1]
  rw [show ((match some (X.data ++ [' '],
        (' ' :: ((declLine props).data ++ [';', ' '])) ++ '}' :: []) with
      | none => none
      | some (sel, rest) =>
        if sel.isEmpty then none
        else
          match splitFirst '}' rest with
          | none => none
          | some (decls, _) =>
            if decls.isEmpty then none
            else
              some ⟨String.mk (trimChars sel),
                (splitAll ';' (trimChars decls)).foldl parseDeclSeg []⟩) : Option ParsedRule)
    = if (X.data ++ [' ']).isEmpty then none
      else
        match splitFirst '}' ((' ' :: ((declLine props).data ++ [';', ' '])) ++ '}' :: []) with
        | none => none
        | some (decls, _) =>
          if decls.isEmpty then none
          else
            some ⟨String.mk (trimChars (X.data ++ [' '])),
              (splitAll ';' (trimChars decls)).foldl parseDeclSeg []⟩
    from rfl]
  rw [hselne]
  rw [if_neg (by decide : ¬ (false = true))]
  rw [hs2]
  rw [show ((match some (' ' :: ((declLine props).data ++ [';', ' ']), ([] : List Char)) with
      | none => none
      | some (decls, _) =>
        if decls.isEmpty then none
        else
          some ⟨String.mk (trimChars (X.data ++ [' '])),
            (splitAll ';' (trimChars decls)).foldl parseDeclSeg []⟩) : Option ParsedRule)
    = if (' ' :: ((declLine props).data ++ [';', ' '])).isEmpty then none
      else
        some ⟨String.mk (trimChars (X.data ++ [' '])),
          (splitAll ';' (trimChars (' ' :: ((declLine props).data ++ [';', ' '])))).foldl
            parseDeclSeg []⟩
    from rfl]
  rw [if_neg (by simp : ¬ ((' ' :: ((declLine props).data ++ [';', ' '])).isEmpty = true))]
  rw [ht1, ht2, ht3]

theorem segChars_length_pos (s : Seg) : 1 ≤ (segChars s).length := by
  cases s <;> simp [segChars]

theorem suffixChars_length (segs : List Seg) :
    segs.length ≤ (suffixChars segs).length := by
  induction segs with
  | nil => simp [suffixChars]
  | cons s t ih =>
    have h1 := segChars_length_pos s
    have h2 : suffixChars (s :: t) = segChars s ++ suffixChars t := by
      simp [suffixChars]
    rw [h2, List.length_cons, List.length_append]
    omega

theorem extractBaseSelector_clean (S : String) (hS : CleanSelector S = true) :
    extractBaseSelector S = S := by
  obtain ⟨hne, hall⟩ := cleanSelector_facts S hS
  unfold extractBaseSelector stripPseudoChars
  rw [stripPseudoAux_clean S.data (fun c hc => ⟨(hall c hc).2.1, (hall c hc).2.2.1⟩) _]
  rw [trimChars_eq_self S.data (hall _ (headD_mem _ _ hne)).1
    (hall _ (getLastD_mem _ _ hne)).1]

theorem strip_suffix_nil (segs : List Seg) (hw : ∀ s ∈ segs, segWf s = true) (f : Nat) :
    stripPseudoAux (segs.length + f) (suffixChars segs) = [] := by
  have h := strip_suffix segs [] f hw (by intro c hc; simp at hc)
  rw [List.append_nil] at h
  rw [h, stripPseudoAux_nil]

theorem extractBaseSelector_suffix (S : String) (segs : List Seg)
    (hS : CleanSelector S = true) (hsegs : ∀ s ∈ segs, segWf s = true) :
    extractBaseSelector (S ++ String.mk (suffixChars segs)) = S := by
  obtain ⟨hne, hall⟩ := cleanSelector_facts S hS
  have hdata : (S ++ String.mk (suffixChars segs)).data = S.data ++ suffixChars segs := by
    rw [String.data_append]
  unfold extractBaseSelector stripPseudoChars
  rw [hdata, List.length_append]
  rw [stripPseudoAux_clean_pfx S.data
    (fun c hc => ⟨(hall c hc).2.1, (hall c hc).2.2.1⟩) (suffixChars segs)
    (suffixChars segs).length]
  have hstrip : stripPseudoAux (suffixChars segs).length (suffixChars segs) = [] := by
    have hlen := suffixChars_length segs
    have hform : (suffixChars segs).length
        = segs.length + ((suffixChars segs).length - segs.length) := by omega
    rw [hform]
    exact strip_suffix_nil segs hsegs _
  rw [hstrip, List.append_nil]
  rw [trimChars_eq_self S.data (hall _ (headD_mem _ _ hne)).1
    (hall _ (getLastD_mem _ _ hne)).1]

theorem isPrefixOf_append (l r : List Char) : l.isPrefixOf (l ++ r) = true := by
  induction l with
  | nil => cases r <;> rfl
  | cons a t ih => simp [List.isPrefixOf, ih]

theorem replaceFirst_at_pfx (pat rep rest : List Char) (hne : pat ≠ []) :
    replaceFirstChars pat rep (pat ++ rest) = rep ++ rest := by
  cases pat with
  | nil => exact absurd rfl hne
  | cons a t =>
    have hpre : (a :: t).isPrefixOf (a :: (t ++ rest)) = true := by
      have h := isPrefixOf_append (a :: t) rest
      simp only [List.cons_append] at h
      exact h
    rw [List.cons_append]
    unfold replaceFirstChars
    rw [if_pos hpre]
    rw [show ((a :: (t ++ rest)).drop (a :: t).length) = rest from by
      rw [List.length_cons, List.drop_succ_cons, List.drop_left]]

theorem jsReplace_pfx (base : String) (sfx : List Char) (hne : base.data ≠ []) :
    jsReplace (base ++ String.mk sfx) base "&" = String.mk ('&' :: sfx) := by
  unfold jsReplace
  rw [show (base ++ String.mk sfx).data = base.data ++ sfx from by
    rw [String.data_append]]
  rw [replaceFirst_at_pfx base.data ("&" : String).data sfx hne]
  rfl

theorem nestedFullSelector_amp (S k : String) (sfx : List Char)
    (hk : k.data = '&' :: sfx) :
    nestedFullSelector S k = S ++ String.mk sfx := by
  have hstart : jsStartsWith k "&" = true := by
    unfold jsStartsWith
    rw [hk]
    exact isPrefixOf_append ['&'] sfx
  unfold nestedFullSelector
  rw [if_pos hstart, hk]
  rfl

theorem cleanSelector_ruleFacts (S : String) (hS : CleanSelector S = true) :
    S.data ≠ [] ∧ '{' ∉ S.data ∧ wsChar (S.data.headD ' ') = false
      ∧ wsChar (S.data.getLastD ' ') = false := by
  obtain ⟨hne, hall⟩ := cleanSelector_facts S hS
  exact ⟨hne, fun hm => (hall _ hm).2.2.2.1 rfl,
    (hall _ (headD_mem _ _ hne)).1, (hall _ (getLastD_mem _ _ hne)).1⟩

theorem addRule_base (S : String) (bp : List (String × String))
    (hS : CleanSelector S = true)
    (hnd : bp.Pairwise (fun a b => a.1 ≠ b.1))
    (htok : ∀ kv ∈ bp, declToken kv.1 = true ∧ declToken kv.2 = true) :
    addRuleToGroups [] (S ++ " \x7b " ++ declLine bp ++ "; \x7d") = [(S, ⟨bp, []⟩)] := by
  obtain ⟨hne, hnb, hh, hl⟩ := cleanSelector_ruleFacts S hS
  have hparse := parseRule_generic S bp hne hnb hh hl hnd htok
  have hextract := extractBaseSelector_clean S hS
  have hfold := foldl_jsSet_fresh bp [] (fun kv _ => rfl) hnd
  simp [addRuleToGroups, hparse, hextract, hfold, jsGet, jsSet]

theorem nestedRuleFacts (S : String) (segs : List Seg) (hS : CleanSelector S = true)
    (hsegs : segs ≠ []) (hwsegs : ∀ s ∈ segs, segWf s = true) :
    (S ++ String.mk (suffixChars segs)).data ≠ []
      ∧ '{' ∉ (S ++ String.mk (suffixChars segs)).data
      ∧ wsChar ((S ++ String.mk (suffixChars segs)).data.headD ' ') = false
      ∧ wsChar ((S ++ String.mk (suffixChars segs)).data.getLastD ' ') = false := by
  obtain ⟨hne, hall⟩ := cleanSelector_facts S hS
  have hsfxprops := suffixChars_props segs hwsegs
  have hsfxne := suffixChars_ne_nil segs hsegs
  have hXdata : (S ++ String.mk (suffixChars segs)).data
      = S.data ++ suffixChars segs := by
    rw [String.data_append]
  refine ⟨?_, ?_, ?_, ?_⟩
  · rw [hXdata]
    intro h
    exact hne (List.append_eq_nil.mp h).1
  · rw [hXdata]
    intro hm
    rcases List.mem_append.mp hm with hm | hm
    · exact (hall _ hm).2.2.2.1 rfl
    · exact (hsfxprops _ hm).2.1 rfl
  · rw [hXdata, headD_append _ _ _ hne]
    exact (hall _ (headD_mem _ _ hne)).1
  · rw [hXdata, getLastD_append _ _ _ hsfxne]
    exact (hsfxprops _ (getLastD_mem _ _ hsfxne)).1

theorem selector_ne_base (S : String) (segs : List Seg) (hsegs : segs ≠ []) :
    S ++ String.mk (suffixChars segs) ≠ S := by
  intro heq
  have hd : S.data ++ suffixChars segs = S.data := by
    have h := congrArg String.data heq
    rwa [String.data_append] at h
  have hlen := congrArg List.length hd
  rw [List.length_append] at hlen
  have h0 : (suffixChars segs).length = 0 := by omega
  exact suffixChars_ne_nil segs hsegs (List.length_eq_zero.mp h0)

theorem addRule_nested (S : String) (bp props : List (String × String))
    (done : List (String × List (String × String)))
    (key : String) (segs : List Seg) (hS : CleanSelector S = true)
    (hsegs : segs ≠ []) (hwsegs : ∀ s ∈ segs, segWf s = true)
    (hk : key.data = '&' :: suffixChars segs)
    (hndp : props.Pairwise (fun a b => a.1 ≠ b.1))
    (htokp : ∀ kv ∈ props, declToken kv.1 = true ∧ declToken kv.2 = true)
    (hfreshdone : jsGet done key = none) :
    addRuleToGroups [(S, ⟨bp, done⟩)]
        (nestedFullSelector S key ++ " \x7b " ++ declLine props ++ "; \x7d")
      = [(S, ⟨bp, done ++ [(key, props)]⟩)] := by
  obtain ⟨hXne, hXnb, hXh, hXl⟩ := nestedRuleFacts S segs hS hsegs hwsegs
  have hSne : S.data ≠ [] := (cleanSelector_facts S hS).1
  have hfull : nestedFullSelector S key = S ++ String.mk (suffixChars segs) :=
    nestedFullSelector_amp S key (suffixChars segs) hk
  have hparse := parseRule_generic (S ++ String.mk (suffixChars segs)) props
    hXne hXnb hXh hXl hndp htokp
  have hextract := extractBaseSelector_suffix S segs hS hwsegs
  have hneq := selector_ne_base S segs hsegs
  have hrep : jsReplace (S ++ String.mk (suffixChars segs)) S "&" = key := by
    rw [jsReplace_pfx S (suffixChars segs) hSne, ← hk]
  have hset : jsSet key props done = done ++ [(key, props)] :=
    jsSet_fresh key props done hfreshdone
  rw [hfull]
  simp [addRuleToGroups, hparse, hextract, hneq, hrep, hset, jsGet, jsSet]

theorem addRule_nested_empty (S : String) (props : List (String × String))
    (key : String) (segs : List Seg) (hS : CleanSelector S = true)
    (hsegs : segs ≠ []) (hwsegs : ∀ s ∈ segs, segWf s = true)
    (hk : key.data = '&' :: suffixChars segs)
    (hndp : props.Pairwise (fun a b => a.1 ≠ b.1))
    (htokp : ∀ kv ∈ props, declToken kv.1 = true ∧ declToken kv.2 = true) :
    addRuleToGroups [] (nestedFullSelector S key ++ " \x7b " ++ declLine props ++ "; \x7d")
      = [(S, ⟨[], [(key, props)]⟩)] := by
  obtain ⟨hXne, hXnb, hXh, hXl⟩ := nestedRuleFacts S segs hS hsegs hwsegs
  have hSne : S.data ≠ [] := (cleanSelector_facts S hS).1
  have hfull : nestedFullSelector S key = S ++ String.mk (suffixChars segs) :=
    nestedFullSelector_amp S key (suffixChars segs) hk
  have hparse := parseRule_generic (S ++ String.mk (suffixChars segs)) props
    hXne hXnb hXh hXl hndp htokp
  have hextract := extractBaseSelector_suffix S segs hS hwsegs
  have hneq := selector_ne_base S segs hsegs
  have hrep : jsReplace (S ++ String.mk (suffixChars segs)) S "&" = key := by
    rw [jsReplace_pfx S (suffixChars segs) hSne, ← hk]
  rw [hfull]
  simp [addRuleToGroups, hparse, hextract, hneq, hrep, jsGet, jsSet]

theorem group_nested_fold (S : String) (hS : CleanSelector S = true)
    (bp : List (String × String)) :
    ∀ (todo done : List (String × List (String × String))),
      (∀ kv ∈ todo, WfNestedKey kv.1 ∧ WfProps kv.2) →
      todo.Pairwise (fun a b => a.1 ≠ b.1) →
      (∀ kv ∈ todo, jsGet done kv.1 = none) →
      (todo.map
          (fun kv => nestedFullSelector S kv.1 ++ " \x7b " ++ declLine kv.2 ++ "; \x7d")).foldl
          addRuleToGroups [(S, ⟨bp, done⟩)]
        = [(S, ⟨bp, done ++ todo⟩)] := by
  intro todo
  induction todo with
  | nil => intro done _ _ _; simp
  | cons kv rest ih =>
    intro done hw hnd hfresh
    rcases kv with ⟨key, props⟩
    obtain ⟨⟨segs, hsegs, hwsegs, hk⟩, hprops⟩ := hw (key, props) (List.mem_cons_self _ _)
    rw [List.map_cons, List.foldl_cons]
    rw [addRule_nested S bp props done key segs hS hsegs hwsegs hk hprops.1 hprops.2
      (hfresh (key, props) (List.mem_cons_self _ _))]
    rw [ih (done ++ [(key, props)]) (fun x hx => hw x (List.mem_cons_of_mem _ hx))
      hnd.of_cons ?_]
    · simp
    · intro kv' hkv'
      apply jsGet_append_none
      · exact hfresh kv' (List.mem_cons_of_mem _ hkv')
      · have hne2 : key ≠ kv'.1 := (List.pairwise_cons.mp hnd).1 kv' hkv'
        simp [jsGet, fun hh : key = kv'.1 => hne2 hh]

theorem declLine_data_ne (p v : String) (rest : List (String × String)) :
    (declLine ((p, v) :: rest)).data ≠ [] := by
  cases rest with
  | nil => rw [declLine_single]; simp
  | cons kv2 rest' => rw [declLine_cons]; simp

/-! ## C4: the nesting round trip -/

/-- C4 (amended): the round trip holds on well-formed grouped data, not for
every base/nested partition.  For a clean base selector (no whitespace,
pseudo, attribute or brace characters), well-formed declaration tokens (in
particular no `:` inside values), distinct keys, well-formed `&`-prefixed
pseudo/attribute nested keys, and at least one rule present,
`generateNestedCSS` in expanded/legacy mode emits exactly the flat
`expandedRules`, and re-grouping those flat rules with
`groupRulesBySelector` reproduces the original partition: one group under
the base selector, the same base declarations, the same nested entries
under the same `&`-prefixed keys.  (A value containing `:`, such as a URL,
breaks the round trip — see the counterexample.) -/
theorem c4_nesting_roundtrip (S : String) (bp : List (String × String))
    (nr : List (String × List (String × String))) (cfg : NestingConfig)
    (hS : CleanSelector S = true) (hbp : WfProps bp)
    (hnr : ∀ kv ∈ nr, WfNestedKey kv.1 ∧ WfProps kv.2)
    (hnd : nr.Pairwise (fun a b => a.1 ≠ b.1))
    (hne : bp ≠ [] ∨ nr ≠ [])
    (hcfg : cfg.enabled = false ∨ cfg.legacyFallback = true) :
    generateNestedCSS S bp nr cfg = joinSep "\n" (expandedRules S bp nr)
      ∧ groupRulesBySelector (expandedRules S bp nr) = [(S, ⟨bp, nr⟩)] := by
  constructor
  · unfold generateNestedCSS generateExpandedCSS
    rcases hcfg with h | h <;> rw [if_pos (by simp [h])]
  · unfold groupRulesBySelector
    by_cases hbpe : bp = []
    · subst hbpe
      cases nr with
      | nil => rcases hne with h | h <;> exact absurd rfl h
      | cons kv rest =>
        rcases kv with ⟨key, props⟩
        obtain ⟨⟨segs, hsegs, hwsegs, hk⟩, hprops⟩ :=
          hnr (key, props) (List.mem_cons_self _ _)
        have hrules : expandedRules S [] ((key, props) :: rest)
            = (nestedFullSelector S key ++ " \x7b " ++ declLine props ++ "; \x7d")
              :: rest.map
                (fun kv => nestedFullSelector S kv.1 ++ " \x7b " ++ declLine kv.2 ++ "; \x7d") := by
          unfold expandedRules
          rw [if_pos (show declLine [] = "" from rfl)]
          simp
        rw [hrules, List.foldl_cons,
          addRule_nested_empty S props key segs hS hsegs hwsegs hk hprops.1 hprops.2]
        rw [group_nested_fold S hS [] rest [(key, props)]
          (fun x hx => hnr x (List.mem_cons_of_mem _ hx)) hnd.of_cons ?_]
        · simp
        · intro kv' hkv'
          have hne2 : key ≠ kv'.1 := (List.pairwise_cons.mp hnd).1 kv' hkv'
          simp [jsGet, fun hh : key = kv'.1 => hne2 hh]
    · have hdl : ¬ declLine bp = "" := by
        cases hb : bp with
        | nil => exact absurd hb hbpe
        | cons kv rest2 =>
          rcases kv with ⟨p, v⟩
          intro h
          have hd := congrArg String.data h
          exact declLine_data_ne p v rest2 (by simpa using hd)
      have hrules : expandedRules S bp nr
          = (S ++ " \x7b " ++ declLine bp ++ "; \x7d")
            :: nr.map
              (fun kv => nestedFullSelector S kv.1 ++ " \x7b " ++ declLine kv.2 ++ "; \x7d") := by
        unfold expandedRules
        rw [if_neg hdl]
        simp
      rw [hrules, List.foldl_cons, addRule_base S bp hS hbp.1 hbp.2]
      rw [group_nested_fold S hS bp nr [] hnr hnd (fun kv _ => rfl)]
      simp

/-- C4 counterexample: the claim as stated quantifies over every nested rule
set.  A declaration value containing `:` (any `url(...)`) is truncated by the
re-parse — `parseRule` splits a declaration at every `:` and keeps only the
first two fragments — so expanding and regrouping does not reproduce the
original partition. -/
theorem c4_url_counterexample :
    groupRulesBySelector (expandedRules ".a" [("background", "url(http://x)")] [])
      ≠ [(".a", ⟨[("background", "url(http://x)")], []⟩)]
    ∧ groupRulesBySelector (expandedRules ".a" [("background", "url(http://x)")] [])
      = [(".a", ⟨[("background", "url(http")], []⟩)] := by
  constructor
  · decide
  · decide

/-- Witness for C4 at a concrete well-formed input: base selector `.btn`
with `color: blue` and a `&:hover` nested rule, expanded and regrouped. -/
theorem c4_witness :
    CleanSelector ".btn" = true
    ∧ groupRulesBySelector
        (expandedRules ".btn" [("color", "blue")] [("&:hover", [("color", "red")])])
      = [(".btn", ⟨[("color", "blue")], [("&:hover", [("color", "red")])]⟩)] :=
  ⟨by decide,
    (c4_nesting_roundtrip ".btn" [("color", "blue")] [("&:hover", [("color", "red")])]
      ⟨true, true⟩ (by decide) ⟨by simp, by decide⟩
      (fun kv hkv => by
        simp only [List.mem_singleton] at hkv
        subst hkv
        exact ⟨⟨[Seg.pseudo ['h', 'o', 'v', 'e', 'r']], by decide, by decide, by decide⟩,
          by simp, by decide⟩)
      (by simp) (Or.inl (by decide)) (Or.inr rfl)).2⟩
